import Mathlib

/-!
Verification of the `neo` package of the terraonion repository: a shallow
embedding of the cart-file codec, the stream/interleave primitives, the
program-area readers and the PCM2 voice transform, together with proofs of
the specification's claims about them.

Bytes are modelled as natural numbers; where machine-integer truncation
matters the embedding takes the value modulo the corresponding power of two.
Fallible Go functions are modelled with `Except`.
-/

namespace Neo

/-! ## Bit primitives (src/neo/bits.go)

Each Go function folds over the list of source-bit indices, shifting the
accumulator left by one (with truncation at the machine word width) and
setting the low bit when the selected bit of `n` is set.  `n & (1 << b)`
in Go equals testing bit `b` of `n` whenever `n` fits in the machine word,
which the theorems assume. -/

def bitswapStep (width n result b : Nat) : Nat :=
  (result <<< 1) % 2 ^ width + (if n.testBit b then 1 else 0)

def bitswapGen (width n : Nat) (bits : List Nat) : Nat :=
  bits.foldl (bitswapStep width n) 0

def bitswapByte (n : Nat) (bits : List Nat) : Nat :=
  bitswapGen 8 n bits

def bitswapUint16 (n : Nat) (bits : List Nat) : Nat :=
  bitswapGen 16 n bits

def bitswapInt (n : Nat) (bits : List Nat) : Nat :=
  bitswapGen 64 n bits

/-- The value of a list of bits read most-significant first. -/
def natOfBits (l : List Bool) : Nat :=
  l.foldl (fun r b => 2 * r + b.toNat) 0

/-! ## PCM2 voice transform (src/neo/pcm2.go, `pcm2Decrypt`) -/

/-- Group a byte list into little-endian 16-bit words, dropping a trailing
odd byte, as the word-building loop of `pcm2Decrypt` does. -/
def toWords : List Nat → List Nat
  | lo :: hi :: rest => (lo + 256 * hi) :: toWords rest
  | _ => []

/-- Serialise 16-bit words back to little-endian bytes (`uint16SliceToBytes`). -/
def fromWords : List Nat → List Nat
  | [] => []
  | w :: rest => w % 256 :: w / 256 % 256 :: fromWords rest

/-- The block loop of `pcm2Decrypt`: within each stride of `v2` words the
word at index `j` is replaced by the word at index `j ^^^ v4` of the same
stride.  The Go loop never terminates when `value` is zero; the claims only
concern `value` in `{4, 8, 16}`, so the `v2 = 0` guard is irrelevant to
them. -/
def pcm2Blocks (v2 v4 : Nat) (l : List Nat) : List Nat :=
  if h : v2 = 0 ∨ l = [] then l
  else
    ((List.range v2).map (fun j => (l.take v2).getD (j ^^^ v4) 0))
      ++ pcm2Blocks v2 v4 (l.drop v2)
termination_by l.length
decreasing_by
  simp only [not_or] at h
  rw [List.length_drop]
  exact Nat.sub_lt (List.length_pos_of_ne_nil h.2) (Nat.pos_of_ne_zero h.1)

def pcm2Decrypt (b : List Nat) (value : Nat) : List Nat :=
  fromWords (pcm2Blocks (value / 2) (value / 4) (toWords b))

/-! ## Cart file codec (src/neo/file.go)

`fileFields` is a packed little-endian struct: 3 signature bytes, a version
byte, six `uint32` area sizes, `uint32` year, genre, screenshot and NGH,
a 33-byte name, a 17-byte manufacturer and 4002 reserved bytes, 4096 bytes
in all, followed by the six ROM bodies. -/

def Areas : Nat := 6
def nameLength : Nat := 33
def manufacturerLength : Nat := 17
def offsetNGH : Nat := 0x108

structure File where
  size : List Nat
  year : Nat
  genre : Nat
  screenshot : Nat
  ngh : Nat
  name : List Nat
  manufacturer : List Nat
  rom : List (List Nat)
deriving DecidableEq

inductive Err where
  | eof
  | invalid
  | tooMuch
  | invalidInterleave
  | outOfBounds
  | fuel
deriving DecidableEq

instance {α β : Type} [DecidableEq α] [DecidableEq β] : DecidableEq (Except α β)
  | .error x, .error y =>
    decidable_of_iff (x = y) ⟨fun h => by rw [h], fun h => by injection h⟩
  | .error _, .ok _ => isFalse fun h => Except.noConfusion h
  | .ok _, .error _ => isFalse fun h => Except.noConfusion h
  | .ok x, .ok y =>
    decidable_of_iff (x = y) ⟨fun h => by rw [h], fun h => by injection h⟩

/-- Little-endian serialisation of a `uint32` value. -/
def le32 (n : Nat) : List Nat :=
  [n % 256, n / 256 % 256, n / 65536 % 256, n / 16777216 % 256]

def le32dec (l : List Nat) : Nat :=
  l.getD 0 0 + 256 * l.getD 1 0 + 65536 * l.getD 2 0 + 16777216 * l.getD 3 0

def le16dec (l : List Nat) : Nat :=
  l.getD 0 0 + 256 * l.getD 1 0

/-- Go `copy` of a byte sequence into a zero-initialised array of length
`len`: the source is truncated to `len` and the remainder stays zero. -/
def goCopyField (s : List Nat) (len : Nat) : List Nat :=
  s.take len ++ List.replicate (len - s.length) 0

/-- `MarshalBinary`: the zeroed `fileFields` struct is filled from the
public fields and serialised little-endian, followed by the six ROM bodies
in order. -/
def marshalBinary (f : File) : List Nat :=
  [78, 69, 79, 1]
    ++ ((List.range Areas).map (fun i => le32 (f.size.getD i 0))).flatten
    ++ le32 f.year ++ le32 f.genre ++ le32 f.screenshot ++ le32 f.ngh
    ++ goCopyField f.name nameLength
    ++ goCopyField f.manufacturer manufacturerLength
    ++ List.replicate 4002 0
    ++ ((List.range Areas).map (fun i => f.rom.getD i [])).flatten

/-- The area-reading loop of `UnmarshalBinary`: for each declared size
`s > 0` a buffer of `s` zero bytes is allocated and filled by a single
`Read` call, which takes `min s rest.length` bytes and fails with EOF only
when no byte at all remains; the unread tail of the buffer stays zero. -/
def readAreas : List Nat → List Nat → Except Err (List (List Nat) × List Nat)
  | [], rest => .ok ([], rest)
  | s :: sizes, rest =>
    if s = 0 then
      (readAreas sizes rest).map (fun x => ([] :: x.1, x.2))
    else if rest.isEmpty then .error .eof
    else
      (readAreas sizes (rest.drop s)).map
        (fun x => ((rest.take s ++ List.replicate (s - rest.length) 0) :: x.1, x.2))

/-- Go `strings.TrimRight(s, "\x00")`. -/
def trimNulRight (l : List Nat) : List Nat :=
  (l.reverse.dropWhile (fun x => x == 0)).reverse

/-- The six declared area sizes parsed from a header. -/
def sizesOf (b : List Nat) : List Nat :=
  (List.range Areas).map (fun i => le32dec ((b.drop (4 + 4 * i)).take 4))

/-- The consecutive segments of `body` cut at the given sizes. -/
def sizeChunks : List Nat → List Nat → List (List Nat)
  | [], _ => []
  | s :: sizes, body => body.take s :: sizeChunks sizes (body.drop s)

/-- `UnmarshalBinary`: parse the 4096-byte header (an input shorter than
the struct fails the `binary.Read` with an EOF error), validate signature
and version, read each declared area, then require the input exhausted. -/
def unmarshalBinary (b : List Nat) : Except Err File :=
  if b.length < 4096 then .error .eof
  else if b.take 3 = [78, 69, 79] ∧ b.getD 3 0 = 1 then
    match readAreas (sizesOf b) (b.drop 4096) with
    | .error e => .error e
    | .ok (roms, rest) =>
      if rest.isEmpty then
        .ok { size := sizesOf b
              year := le32dec ((b.drop 28).take 4)
              genre := le32dec ((b.drop 32).take 4)
              screenshot := le32dec ((b.drop 36).take 4)
              ngh := le32dec ((b.drop 40).take 4)
              name := trimNulRight ((b.drop 44).take nameLength)
              manufacturer := trimNulRight ((b.drop 77).take manufacturerLength)
              rom := roms }
      else .error .tooMuch
  else .error .invalid

/-- The post-read steps of `NewFile` (src/neo/file.go lines 115-124): the
area sizes are overwritten with the actual byte lengths (as `uint32`) and
`NGH` is set from offset `offsetNGH` of the P area when that area is
strictly longer than `offsetNGH + 2` bytes; a fresh `File` has `NGH = 0`. -/
def newFileFinalize (rom : List (List Nat)) (year genre screenshot : Nat)
    (name manufacturer : List Nat) : File :=
  { size := (List.range Areas).map (fun i => (rom.getD i []).length % 2 ^ 32)
    year := year
    genre := genre
    screenshot := screenshot
    ngh := if (rom.getD 0 []).length > offsetNGH + 2
           then le16dec ((rom.getD 0 []).drop offsetNGH) else 0
    name := name
    manufacturer := manufacturer
    rom := rom }

/-! ## P-area reader (src/neo/pcm2.go, `commonPReader`) -/

structure MameROM where
  filename : String
  size : Nat
deriving DecidableEq

def oneMB : Nat := 1048576
def twoMB : Nat := 2097152

/-- The `re != nil && re.MatchString(x.filename)` test of the partition
loop, with the regular expression abstracted to a string predicate. -/
def isPatchROM (re : Option (String → Bool)) (r : MameROM) : Bool :=
  match re with
  | some p => p r.filename
  | none => false

/-- `commonPReader`: members whose filename matches the patch pattern
become patch streams (in order); the rest stay as base members (in order).
When the first base member's declared size is 2 MiB the two 1 MiB halves
of its stream are swapped.  The patch bytes then overlay the head of the
base concatenation.  Go indexes `roms[0]` unconditionally, a runtime panic
when every member is a patch, modelled with `outOfBounds`; the two `CopyN`
calls fail with EOF when their source is too short. -/
def commonPReader (roms : List MameROM) (readers : List (List Nat))
    (re : Option (String → Bool)) : Except Err (List Nat) :=
  let pairs := roms.zip readers
  let patch := ((pairs.filter (fun x => isPatchROM re x.1)).map (fun x => x.2)).flatten
  match pairs.filter (fun x => ! isPatchROM re x.1) with
  | [] => .error .outOfBounds
  | b0 :: bs =>
    let firstRes : Except Err (List Nat) :=
      if b0.1.size = twoMB then
        if b0.2.length < oneMB then .error .eof
        else .ok (b0.2.drop oneMB ++ b0.2.take oneMB)
      else .ok b0.2
    match firstRes with
    | .error e => .error e
    | .ok first =>
      let base := first ++ (bs.map (fun x => x.2)).flatten
      if base.length < patch.length then .error .eof
      else .ok (patch ++ base.drop patch.length)

/-! ## K2K2 program shuffle (k2k2PReader) -/

def k2k2Offset (blocks : List Nat) : Nat :=
  if blocks.length > 8 then 0 else 0x100000

/-- Go `copy(dst[off:], src)` on byte slices: overwrites
`min src.length (dst.length - off)` bytes of `dst` starting at `off`. -/
def goCopyAt (dst : List Nat) (off : Nat) (src : List Nat) : List Nat :=
  dst.take off ++ src.take (dst.length - off) ++ dst.drop (off + src.length)

/-- The block shuffle of `k2k2PReader`: `dst` snapshots the bytes of the
P image from the base offset, then block `i` of the region is overwritten
with the `0x80000`-byte block of the snapshot starting at `blocks[i]`. -/
def k2k2Shuffle (blocks : List Nat) (b : List Nat) : List Nat :=
  let offset := k2k2Offset blocks
  let dst := goCopyAt (List.replicate (0x80000 * blocks.length) 0) 0 (b.drop offset)
  blocks.enum.foldl
    (fun acc ix => goCopyAt acc (offset + ix.1 * 0x80000) ((dst.drop ix.2).take 0x80000))
    b

def k2k2PReader (roms : List MameROM) (readers : List (List Nat))
    (re : Option (String → Bool)) (blocks : List Nat) : Except Err (List Nat) :=
  (commonPReader roms readers re).map (k2k2Shuffle blocks)

/-! ## Interleave (src/neo/rom.go, `interleaveROM`)

The Go loop keeps an EOF bitmask (one bit per reader, cleared when `CopyN`
returns fewer than `width` bytes), a growing output buffer, and a `tail`
list recording the byte counts of every read from the first zero-byte read
onwards.  The loop breaks as soon as the mask is empty — possibly in the
middle of a cycle — and then truncates one `width` stride per trailing
zero entry of `tail`.  The loop is driven here by a fuel bound large
enough for any positive width (for `width = 0` the Go loop never
terminates). -/

structure IlState where
  rs : List (List Nat)
  eof : List Bool
  buf : List Nat
  tl : List Nat
deriving DecidableEq

/-- The number of trailing zero entries of a byte-count list. -/
def tz (l : List Nat) : Nat :=
  (l.reverse.takeWhile (fun n => n == 0)).length

/-- The `tail` bookkeeping of the Go loop over a sequence of read counts:
a count is recorded when it is zero or once recording has started. -/
def tailApp (tl : List Nat) (ns : List Nat) : List Nat :=
  ns.foldl (fun t n => if n = 0 ∨ t ≠ [] then t ++ [n] else t) tl

/-- The strides a pass over `idxs` produces from the sources `rs`: each
source contributes `w` bytes, zero-filled past its end, paired with the
number of bytes it actually yielded. -/
def cycleStrides (w : Nat) (idxs : List Nat) (rs : List (List Nat)) :
    List (List Nat × Nat) :=
  idxs.map (fun idx =>
    ((rs.getD idx []).take w
       ++ List.replicate (w - min w (rs.getD idx []).length) 0,
     min w (rs.getD idx []).length))

/-- One `io.CopyN` of `w` bytes from reader `idx`, with EOF bookkeeping,
zero filling and the `tail` update. -/
def ilRead (w : Nat) (st : IlState) (idx : Nat) : IlState :=
  let r := st.rs.getD idx []
  let n := min w r.length
  { rs := st.rs.set idx (r.drop w)
    eof := if n < w then st.eof.set idx false else st.eof
    buf := st.buf ++ r.take w ++ List.replicate (w - n) 0
    tl := if n = 0 ∨ st.tl ≠ [] then st.tl ++ [n] else st.tl }

def ilAllEOF (eof : List Bool) : Bool := eof.all (fun b => !b)

/-- One pass over the read order, stopping as soon as the mask empties. -/
def ilCycle (w : Nat) : List Nat → IlState → IlState × Bool
  | [], st => (st, false)
  | idx :: rest, st =>
    let st' := ilRead w st idx
    if ilAllEOF st'.eof then (st', true) else ilCycle w rest st'

def ilLoop (w : Nat) (order : List Nat) : Nat → IlState → Option IlState
  | 0, _ => none
  | fuel + 1, st =>
    match ilCycle w order st with
    | (st', true) => some st'
    | (st', false) => ilLoop w order fuel st'

/-- The truncation loop after the main loop: one `width` stride is removed
from the end of the buffer per trailing zero entry of `tail`. -/
def ilTrim (w : Nat) (buf : List Nat) (tl : List Nat) : List Nat :=
  buf.take (buf.length - w * tz tl)

def interleaveROM (w : Nat) (readers : List (List Nat)) : Except Err (List Nat) :=
  let order : List Nat :=
    if readers.length = 2 then [0, 1]
    else if readers.length = 4 then [0, 2, 1, 3]
    else []
  if order = [] then .error .invalidInterleave
  else
    match ilLoop w order ((readers.map List.length).sum + readers.length + 1)
        { rs := readers, eof := readers.map (fun _ => true), buf := [], tl := [] } with
    | some st => .ok (ilTrim w st.buf st.tl)
    | none => .error .fuel

/-- Modelled from the specification's words for `Interleave`: on each
cycle, copy `width` bytes from every source in the given order,
zero-filling short reads, until every source is exhausted; each stride is
paired with the number of bytes its source actually yielded. -/
def specCycles (w : Nat) (order : List Nat) : Nat → List (List Nat) → List (List Nat × Nat)
  | 0, _ => []
  | fuel + 1, rs =>
    if rs.all List.isEmpty then []
    else
      cycleStrides w order rs
        ++ specCycles w order fuel (rs.map (fun r => r.drop w))

/-- Trailing strides contributed by zero-byte reads of exhausted sources
are trimmed from the end of the stream. -/
def specTrimZero (strides : List (List Nat × Nat)) : List (List Nat × Nat) :=
  (strides.reverse.dropWhile (fun p => p.2 == 0)).reverse

/-- The specification's interleave stream. -/
def interleaveSpec (w : Nat) (order : List Nat) (rs : List (List Nat)) : List Nat :=
  ((specTrimZero (specCycles w order ((rs.map List.length).sum + 1) rs)).map
    (fun p => p.1)).flatten

/-- Two index lists of width `w` describe mutually inverse bit
permutations in the most-significant-bit-first convention of `bitswap`:
the entry read for output bit `d` of the second list, fed as output bit
position into the first list, gives back `d`. -/
def InversePerms (p q : List Nat) : Prop :=
  q.length = p.length
    ∧ (∀ x ∈ p, x < p.length)
    ∧ (∀ x ∈ q, x < p.length)
    ∧ ∀ j < p.length, p.getD (p.length - 1 - q.getD (p.length - 1 - j) 0) 0 = j

instance (p q : List Nat) : Decidable (InversePerms p q) := by
  unfold InversePerms; infer_instance

/-! # Theorems -/

/-! ## C1: the NGH header field -/

/-- C1 (amended): after the post-read finalisation of `NewFile`, `NGH`
equals the little-endian 16-bit value at offset 0x108 of the P area when
the P area is strictly longer than 0x10A bytes, and equals 0 when the P
area has at most 0x10A bytes.  (The code tests `len(f.ROM[P]) >
offsetNGH+2`, so at length exactly 0x10A the field stays 0.) -/
theorem newFileFinalize_ngh (rom : List (List Nat)) (year genre screenshot : Nat)
    (name manufacturer : List Nat) :
    (0x10A < (rom.getD 0 []).length →
      (newFileFinalize rom year genre screenshot name manufacturer).ngh
        = le16dec ((rom.getD 0 []).drop 0x108))
    ∧ ((rom.getD 0 []).length ≤ 0x10A →
      (newFileFinalize rom year genre screenshot name manufacturer).ngh = 0) := by
  constructor <;> intro h
  · simp only [newFileFinalize, offsetNGH]
    rw [if_pos (by omega)]
  · simp only [newFileFinalize, offsetNGH]
    rw [if_neg (by omega)]

theorem newFileFinalize_ngh_witness :
    0x10A < (List.replicate 0x10B (7:Nat)).length
      ∧ (newFileFinalize [List.replicate 0x10B 7] 0 0 0 [] []).ngh
          = le16dec ((List.replicate 0x10B (7:Nat)).drop 0x108) :=
  ⟨by simp only [List.length_replicate]; norm_num,
   (newFileFinalize_ngh [List.replicate 0x10B 7] 0 0 0 [] []).1
     (by simp only [List.getD_cons_zero, List.length_replicate]; norm_num)⟩

set_option maxRecDepth 8192 in
/-- C1 as stated is false at a P area of length exactly 0x10A whose last
two bytes are nonzero: the code leaves `NGH = 0` even though
`le16(P[0x108]) = 0x1234`. -/
theorem newFileFinalize_ngh_counterexample :
    0x10A ≤ (List.replicate 0x108 (0:Nat) ++ [0x34, 0x12]).length
      ∧ ¬ ((newFileFinalize [List.replicate 0x108 0 ++ [0x34, 0x12]] 0 0 0 [] []).ngh
            = le16dec ((List.replicate 0x108 (0:Nat) ++ [0x34, 0x12]).drop 0x108)) := by
  decide

/-! ## C7: bitswap -/

theorem natOfBits_append (l : List Bool) (b : Bool) :
    natOfBits (l ++ [b]) = 2 * natOfBits l + b.toNat := by
  simp [natOfBits, List.foldl_append]

theorem natOfBits_lt (l : List Bool) : natOfBits l < 2 ^ l.length := by
  induction l using List.reverseRecOn with
  | nil => simp [natOfBits]
  | append_singleton l b ih =>
    have hb := Bool.toNat_le b
    rw [natOfBits_append]
    simp only [List.length_append, List.length_singleton, pow_succ]
    omega

theorem natOfBits_testBit (l : List Bool) :
    ∀ i, i < l.length →
      (natOfBits l).testBit i = l.getD (l.length - 1 - i) false := by
  induction l using List.reverseRecOn with
  | nil => intro i hi; simp at hi
  | append_singleton l b ih =>
    intro i hi
    rw [natOfBits_append]
    simp only [List.length_append, List.length_singleton]
    match i with
    | 0 =>
      rw [Nat.testBit_zero,
        show l.length + 1 - 1 - 0 = l.length by omega,
        List.getD_append_right _ _ _ _ (le_refl _)]
      cases b <;> simp [Nat.mul_add_mod]
    | i + 1 =>
      have hb := Bool.toNat_le b
      have hi' : i < l.length := by
        simp only [List.length_append, List.length_singleton] at hi; omega
      rw [Nat.testBit_succ,
        show (2 * natOfBits l + b.toNat) / 2 = natOfBits l by omega,
        ih i hi',
        show l.length + 1 - 1 - (i + 1) = l.length - 1 - i by omega,
        List.getD_append]
      omega

theorem foldl_bitswapStep (w n : Nat) (bits : List Nat) :
    ∀ r k, r < 2 ^ k → k + bits.length ≤ w →
      bits.foldl (bitswapStep w n) r
        = (bits.map n.testBit).foldl (fun r b => 2 * r + b.toNat) r := by
  induction bits with
  | nil => intro r k _ _; rfl
  | cons b rest ih =>
    intro r k hr hk
    simp only [List.length_cons] at hk
    have hpow : (2:Nat) ^ (k + 1) ≤ 2 ^ w :=
      Nat.pow_le_pow_right (by norm_num) (by omega)
    have hr2 : 2 * r < 2 ^ (k + 1) := by rw [pow_succ]; omega
    have hstep : bitswapStep w n r b = 2 * r + (n.testBit b).toNat := by
      have hlt : r <<< 1 < 2 ^ w := by
        rw [Nat.shiftLeft_eq, pow_one]; omega
      unfold bitswapStep
      rw [Nat.mod_eq_of_lt hlt, Nat.shiftLeft_eq, pow_one]
      cases n.testBit b <;> simp <;> omega
    simp only [List.foldl_cons, List.map_cons, hstep]
    exact ih (2 * r + (n.testBit b).toNat) (k + 1)
      (by have := Bool.toNat_le (n.testBit b); omega) (by omega)

theorem bitswapGen_eq (w n : Nat) (bits : List Nat) (h : bits.length ≤ w) :
    bitswapGen w n bits = natOfBits (bits.map n.testBit) := by
  unfold bitswapGen natOfBits
  exact foldl_bitswapStep w n bits 0 0 (by norm_num) (by omega)

theorem bitswapGen_lt (w n : Nat) (bits : List Nat) (h : bits.length ≤ w) :
    bitswapGen w n bits < 2 ^ bits.length := by
  rw [bitswapGen_eq w n bits h]
  simpa using natOfBits_lt (bits.map n.testBit)

theorem bitswapGen_testBit (w n : Nat) (bits : List Nat) (hw : bits.length ≤ w)
    (i : Nat) (hi : i < bits.length) :
    (bitswapGen w n bits).testBit (bits.length - 1 - i) = n.testBit (bits.getD i 0) := by
  rw [bitswapGen_eq w n bits hw]
  have hlt : bits.length - 1 - i < (bits.map n.testBit).length := by simp; omega
  rw [natOfBits_testBit _ _ hlt]
  simp only [List.length_map]
  rw [show bits.length - 1 - (bits.length - 1 - i) = i by omega,
    List.getD_eq_getElem _ _ (by simp [hi]), List.getD_eq_getElem _ _ hi]
  simp

theorem bitswapGen_comp (width n : Nat) (p q : List Nat)
    (hw : p.length ≤ width) (hn : n < 2 ^ p.length) (hq : InversePerms p q) :
    bitswapGen width (bitswapGen width n p) q = n := by
  obtain ⟨hlen, hpm, hqm, hinv⟩ := hq
  apply Nat.eq_of_testBit_eq
  intro j
  by_cases hj : j < p.length
  · have hjq : p.length - 1 - j < q.length := by omega
    have e1 : (bitswapGen width (bitswapGen width n p) q).testBit j
        = (bitswapGen width n p).testBit (q.getD (p.length - 1 - j) 0) := by
      have h := bitswapGen_testBit width (bitswapGen width n p) q
        (by omega) (p.length - 1 - j) (by omega)
      rwa [show q.length - 1 - (p.length - 1 - j) = j by omega] at h
    rw [e1]
    have htw : q.getD (p.length - 1 - j) 0 < p.length := by
      have hmem : q.getD (p.length - 1 - j) 0 ∈ q := by
        rw [List.getD_eq_getElem _ _ hjq]; exact List.getElem_mem _
      exact hqm _ hmem
    have e2 : (bitswapGen width n p).testBit (q.getD (p.length - 1 - j) 0)
        = n.testBit (p.getD (p.length - 1 - q.getD (p.length - 1 - j) 0) 0) := by
      have h := bitswapGen_testBit width n p hw
        (p.length - 1 - q.getD (p.length - 1 - j) 0) (by omega)
      rwa [show p.length - 1 - (p.length - 1 - q.getD (p.length - 1 - j) 0)
            = q.getD (p.length - 1 - j) 0 by omega] at h
    rw [e2, hinv j hj]
  · have hple : (2:Nat) ^ p.length ≤ 2 ^ j :=
      Nat.pow_le_pow_right (by norm_num) (by omega)
    have h1 : (bitswapGen width (bitswapGen width n p) q).testBit j = false := by
      apply Nat.testBit_eq_false_of_lt
      have := bitswapGen_lt width (bitswapGen width n p) q (by omega)
      rw [hlen] at this
      omega
    have h2 : n.testBit j = false := Nat.testBit_eq_false_of_lt (by omega)
    rw [h1, h2]

/-- C7 (amended): each bitswap function returns a value whose output bit
`i`, counted from the most significant bit of an output of width
`bits.length`, is bit `bits[i]` of `n`, provided the index list is no
longer than the machine word of the function (8, 16 and 64 bits
respectively — longer lists shift the leading bits out of the truncated
accumulator); consequently bitswap along a permutation followed by
bitswap along its inverse is the identity on inputs of the corresponding
width. -/
theorem bitswap_spec :
    (∀ n bits i, bits.length ≤ 8 → i < bits.length →
      (bitswapByte n bits).testBit (bits.length - 1 - i) = n.testBit (bits.getD i 0))
  ∧ (∀ n bits i, bits.length ≤ 16 → i < bits.length →
      (bitswapUint16 n bits).testBit (bits.length - 1 - i) = n.testBit (bits.getD i 0))
  ∧ (∀ n bits i, bits.length ≤ 64 → i < bits.length →
      (bitswapInt n bits).testBit (bits.length - 1 - i) = n.testBit (bits.getD i 0))
  ∧ (∀ n p q, p.length ≤ 8 → n < 2 ^ p.length → InversePerms p q →
      bitswapByte (bitswapByte n p) q = n)
  ∧ (∀ n p q, p.length ≤ 16 → n < 2 ^ p.length → InversePerms p q →
      bitswapUint16 (bitswapUint16 n p) q = n)
  ∧ (∀ n p q, p.length ≤ 64 → n < 2 ^ p.length → InversePerms p q →
      bitswapInt (bitswapInt n p) q = n) :=
  ⟨fun n bits i h hi => bitswapGen_testBit 8 n bits h i hi,
   fun n bits i h hi => bitswapGen_testBit 16 n bits h i hi,
   fun n bits i h hi => bitswapGen_testBit 64 n bits h i hi,
   fun n p q h hn hq => bitswapGen_comp 8 n p q h hn hq,
   fun n p q h hn hq => bitswapGen_comp 16 n p q h hn hq,
   fun n p q h hn hq => bitswapGen_comp 64 n p q h hn hq⟩

theorem bitswap_spec_witness :
    ((bitswapByte 5 [0, 2]).testBit (([0, 2] : List Nat).length - 1 - 0)
        = Nat.testBit 5 (([0, 2] : List Nat).getD 0 0))
  ∧ bitswapByte (bitswapByte 5 [2, 1, 0]) [2, 1, 0] = 5 :=
  ⟨bitswap_spec.1 5 [0, 2] 0 (by decide) (by decide),
   bitswap_spec.2.2.2.1 5 [2, 1, 0] [2, 1, 0] (by decide) (by decide) (by decide)⟩

/-- C7 as stated is false for `bitswapByte` with nine indices: the
leading output bit is shifted out of the 8-bit accumulator. -/
theorem bitswap_spec_counterexample :
    ¬ ((bitswapByte 1 [0, 0, 0, 0, 0, 0, 0, 0, 0]).testBit
          (([0, 0, 0, 0, 0, 0, 0, 0, 0] : List Nat).length - 1 - 0)
        = Nat.testBit 1 (([0, 0, 0, 0, 0, 0, 0, 0, 0] : List Nat).getD 0 0)) := by
  decide

/-! ## C10: pcm2Decrypt -/

theorem pcm2Blocks_nil (v2 v4 : Nat) : pcm2Blocks v2 v4 [] = [] := by
  rw [pcm2Blocks]; simp

theorem pcm2Blocks_cons (v2 v4 : Nat) (l : List Nat) (h0 : v2 ≠ 0) (hne : l ≠ []) :
    pcm2Blocks v2 v4 l
      = ((List.range v2).map (fun j => (l.take v2).getD (j ^^^ v4) 0))
          ++ pcm2Blocks v2 v4 (l.drop v2) := by
  rw [pcm2Blocks, dif_neg]
  simp [h0, hne]

theorem toWords_length (b : List Nat) : (toWords b).length = b.length / 2 := by
  induction b using toWords.induct with
  | case1 lo hi rest ih => simp only [toWords, List.length_cons]; omega
  | case2 b h => match b, h with
    | [], _ => simp [toWords]
    | [x], _ => simp [toWords]
    | lo :: hi :: rest, h => exact absurd rfl (h lo hi rest)

theorem fromWords_length (ws : List Nat) : (fromWords ws).length = 2 * ws.length := by
  induction ws with
  | nil => simp [fromWords]
  | cons w rest ih => simp only [fromWords, List.length_cons]; omega

theorem fromWords_toWords (b : List Nat) (h2 : b.length % 2 = 0)
    (hb : ∀ x ∈ b, x < 256) : fromWords (toWords b) = b := by
  induction b using toWords.induct with
  | case1 lo hi rest ih =>
    have hlo : lo < 256 := hb lo (by simp)
    have hhi : hi < 256 := hb hi (by simp)
    have e1 : (lo + 256 * hi) % 256 = lo := by
      rw [Nat.add_mul_mod_self_left, Nat.mod_eq_of_lt hlo]
    have e2 : (lo + 256 * hi) / 256 % 256 = hi := by
      rw [Nat.add_mul_div_left _ _ (by norm_num : (0:Nat) < 256),
        Nat.div_eq_of_lt hlo, Nat.zero_add, Nat.mod_eq_of_lt hhi]
    simp only [toWords, fromWords, e1, e2, List.cons.injEq, true_and]
    exact ih (by simp only [List.length_cons] at h2 ⊢; omega)
      (fun x hx => hb x (by simp [hx]))
  | case2 b h => match b, h with
    | [], _ => simp [toWords, fromWords]
    | [x], _ => simp at h2
    | lo :: hi :: rest, h => exact absurd rfl (h lo hi rest)

theorem toWords_fromWords (ws : List Nat) (hw : ∀ w ∈ ws, w < 65536) :
    toWords (fromWords ws) = ws := by
  induction ws with
  | nil => simp [fromWords, toWords]
  | cons w rest ih =>
    have h1 : w < 65536 := hw w (by simp)
    have e : w % 256 + 256 * (w / 256 % 256) = w := by
      have hd : w / 256 < 256 := by omega
      rw [Nat.mod_eq_of_lt hd]
      omega
    simp only [fromWords, toWords, e, List.cons.injEq, true_and]
    exact ih (fun x hx => hw x (by simp [hx]))

theorem toWords_lt (b : List Nat) (hb : ∀ x ∈ b, x < 256) :
    ∀ w ∈ toWords b, w < 65536 := by
  induction b using toWords.induct with
  | case1 lo hi rest ih =>
    intro w hw
    simp only [toWords, List.mem_cons] at hw
    rcases hw with h | h
    · have hlo : lo < 256 := hb lo (by simp)
      have hhi : hi < 256 := hb hi (by simp)
      omega
    · exact ih (fun x hx => hb x (by simp [hx])) w h
  | case2 b h => match b, h with
    | [], _ => simp [toWords]
    | [x], _ => simp [toWords]
    | lo :: hi :: rest, h => exact absurd rfl (h lo hi rest)

theorem pcm2Blocks_mem (v2 v4 : Nat) :
    ∀ (N : Nat) (l : List Nat), l.length ≤ N →
      ∀ x ∈ pcm2Blocks v2 v4 l, x = 0 ∨ x ∈ l := by
  intro N
  induction N with
  | zero =>
    intro l hl x hx
    have : l = [] := List.eq_nil_of_length_eq_zero (by omega)
    subst this
    rw [pcm2Blocks_nil] at hx
    simp at hx
  | succ N ih =>
    intro l hl x hx
    by_cases h0 : v2 = 0
    · rw [pcm2Blocks, dif_pos (Or.inl h0)] at hx; exact Or.inr hx
    by_cases hne : l = []
    · subst hne; rw [pcm2Blocks_nil] at hx; simp at hx
    rw [pcm2Blocks_cons v2 v4 l h0 hne] at hx
    rcases List.mem_append.mp hx with h | h
    · obtain ⟨j, _, hj⟩ := List.mem_map.mp h
      by_cases hlt : j ^^^ v4 < (l.take v2).length
      · right
        rw [← hj, List.getD_eq_getElem _ _ hlt]
        exact List.mem_of_mem_take (List.getElem_mem _)
      · left
        rw [← hj, List.getD_eq_default _ _ (by omega)]
    · have hlen : (l.drop v2).length ≤ N := by
        have := List.length_pos_of_ne_nil hne
        simp only [List.length_drop]
        omega
      rcases ih (l.drop v2) hlen x h with h | h
      · exact Or.inl h
      · exact Or.inr (List.mem_of_mem_drop h)

theorem pcm2Blocks_length (v2 v4 : Nat) (h0 : v2 ≠ 0) :
    ∀ (N : Nat) (l : List Nat), l.length ≤ N → v2 ∣ l.length →
      (pcm2Blocks v2 v4 l).length = l.length := by
  intro N
  induction N with
  | zero =>
    intro l hl _
    have : l = [] := List.eq_nil_of_length_eq_zero (by omega)
    subst this
    rw [pcm2Blocks_nil]
  | succ N ih =>
    intro l hl hdvd
    by_cases hne : l = []
    · subst hne; rw [pcm2Blocks_nil]
    have hpos := List.length_pos_of_ne_nil hne
    have hge : v2 ≤ l.length := Nat.le_of_dvd hpos hdvd
    rw [pcm2Blocks_cons v2 v4 l h0 hne]
    have hdvd' : v2 ∣ (l.drop v2).length := by
      simp only [List.length_drop]
      exact (Nat.dvd_sub' hdvd dvd_rfl)
    rw [List.length_append, List.length_map, List.length_range,
      ih (l.drop v2) (by simp only [List.length_drop]; omega) hdvd']
    simp only [List.length_drop]
    omega

theorem map_range_getD_self {α : Type} (t : List α) (d : α) (n : Nat) (h : t.length = n) :
    (List.range n).map (fun j => t.getD j d) = t := by
  apply List.ext_getElem (by simp [h])
  intro i h1 h2
  simp only [List.getElem_map, List.getElem_range]
  exact List.getD_eq_getElem t d h2

theorem pcm2Blocks_involution (v2 v4 k : Nat) (hv2 : v2 = 2 ^ k) (hv4 : v4 < v2) :
    ∀ (N : Nat) (l : List Nat), l.length ≤ N → v2 ∣ l.length →
      pcm2Blocks v2 v4 (pcm2Blocks v2 v4 l) = l := by
  have h0 : v2 ≠ 0 := by subst hv2; positivity
  intro N
  induction N with
  | zero =>
    intro l hl _
    have : l = [] := List.eq_nil_of_length_eq_zero (by omega)
    subst this
    rw [pcm2Blocks_nil, pcm2Blocks_nil]
  | succ N ih =>
    intro l hl hdvd
    by_cases hne : l = []
    · subst hne; rw [pcm2Blocks_nil, pcm2Blocks_nil]
    have hpos := List.length_pos_of_ne_nil hne
    have hge : v2 ≤ l.length := Nat.le_of_dvd hpos hdvd
    set blk := (List.range v2).map (fun j => (l.take v2).getD (j ^^^ v4) 0) with hblk
    have hblklen : blk.length = v2 := by simp [hblk]
    have htlen : (l.take v2).length = v2 := by simp; omega
    rw [pcm2Blocks_cons v2 v4 l h0 hne]
    have hblkne : blk ++ pcm2Blocks v2 v4 (l.drop v2) ≠ [] := by
      intro hcon
      have := congrArg List.length hcon
      simp [hblklen] at this
      omega
    rw [pcm2Blocks_cons v2 v4 _ h0 hblkne]
    have htake : (blk ++ pcm2Blocks v2 v4 (l.drop v2)).take v2 = blk := by
      rw [List.take_append_of_le_length (by omega), List.take_of_length_le (by omega)]
    have hdrop : (blk ++ pcm2Blocks v2 v4 (l.drop v2)).drop v2
        = pcm2Blocks v2 v4 (l.drop v2) := by
      rw [List.drop_append_of_le_length (by omega), List.drop_of_length_le (by omega)]
      simp
    rw [htake, hdrop]
    have hfirst : (List.range v2).map (fun j => blk.getD (j ^^^ v4) 0) = l.take v2 := by
      have hstep : ∀ j < v2, blk.getD (j ^^^ v4) 0 = (l.take v2).getD j 0 := by
        intro j hj
        have hxor : j ^^^ v4 < v2 := by
          subst hv2
          exact Nat.xor_lt_two_pow hj hv4
        rw [hblk, List.getD_eq_getElem _ _ (by simp [hxor])]
        simp only [List.getElem_map, List.getElem_range]
        rw [Nat.xor_cancel_right]
      calc (List.range v2).map (fun j => blk.getD (j ^^^ v4) 0)
          = (List.range v2).map (fun j => (l.take v2).getD j 0) := by
            apply List.map_congr_left
            intro j hj
            exact hstep j (List.mem_range.mp hj)
        _ = l.take v2 := map_range_getD_self _ _ _ htlen
    have hdvd' : v2 ∣ (l.drop v2).length := by
      simp only [List.length_drop]
      exact Nat.dvd_sub' hdvd dvd_rfl
    rw [hfirst, ih (l.drop v2) (by simp only [List.length_drop]; omega) hdvd']
    exact List.take_append_drop v2 l

/-- C10: for `value` in `{4, 8, 16}` and a byte buffer whose length is a
positive multiple of `value`, `pcm2Decrypt` preserves the length and is an
involution: it permutes the 16-bit words of each stride of `value/2` words
by XOR-ing the word index with `value/4`. -/
theorem pcm2Decrypt_involution (b : List Nat) (value : Nat)
    (hv : value = 4 ∨ value = 8 ∨ value = 16)
    (hpos : 0 < b.length) (hdvd : value ∣ b.length)
    (hb : ∀ x ∈ b, x < 256) :
    (pcm2Decrypt b value).length = b.length
      ∧ pcm2Decrypt (pcm2Decrypt b value) value = b := by
  obtain ⟨k, hk, hv4⟩ : ∃ k, value / 2 = 2 ^ k ∧ value / 4 < value / 2 := by
    rcases hv with h | h | h <;> subst h
    · exact ⟨1, by norm_num⟩
    · exact ⟨2, by norm_num⟩
    · exact ⟨3, by norm_num⟩
  have h0 : value / 2 ≠ 0 := by rw [hk]; positivity
  have heven : b.length % 2 = 0 := by
    rcases hv with h | h | h <;> subst h <;> omega
  have hwdvd : value / 2 ∣ (toWords b).length := by
    rw [toWords_length]
    obtain ⟨m, hm⟩ := hdvd
    refine ⟨m, ?_⟩
    rcases hv with h | h | h <;> subst h <;> omega
  have hblen : (pcm2Blocks (value / 2) (value / 4) (toWords b)).length
      = (toWords b).length :=
    pcm2Blocks_length _ _ h0 _ _ (le_refl _) hwdvd
  have hlen1 : (pcm2Decrypt b value).length = b.length := by
    rw [pcm2Decrypt, fromWords_length, hblen, toWords_length]
    omega
  refine ⟨hlen1, ?_⟩
  have hwlt : ∀ w ∈ pcm2Blocks (value / 2) (value / 4) (toWords b), w < 65536 := by
    intro w hw
    rcases pcm2Blocks_mem _ _ _ _ (le_refl _) w hw with h | h
    · omega
    · exact toWords_lt b hb w h
  rw [pcm2Decrypt, pcm2Decrypt, toWords_fromWords _ hwlt,
    pcm2Blocks_involution _ _ k hk hv4 _ _ (le_refl _) hwdvd,
    fromWords_toWords b heven hb]

theorem pcm2Decrypt_involution_witness :
    (pcm2Decrypt [1, 2, 3, 4] 4).length = 4
      ∧ pcm2Decrypt (pcm2Decrypt [1, 2, 3, 4] 4) 4 = [1, 2, 3, 4] := by
  have h := pcm2Decrypt_involution [1, 2, 3, 4] 4 (by norm_num) (by norm_num)
    (by norm_num) (by decide)
  simpa using h

/-! ## C4: MarshalBinary layout -/

theorem le32_length (n : Nat) : (le32 n).length = 4 := by
  simp [le32]

theorem goCopyField_length (s : List Nat) (len : Nat) :
    (goCopyField s len).length = len := by
  simp only [goCopyField, List.length_append, List.length_take, List.length_replicate]
  omega

/-- C4: `MarshalBinary` produces exactly 4096 header bytes followed by the
six ROM bodies in order P, S, M, V1, V2, C: signature and version, six
little-endian `uint32` area sizes, year, genre, screenshot and NGH, the
name truncated and NUL-padded to 33 bytes, the manufacturer truncated and
NUL-padded to 17 bytes, and 4002 zero bytes, for a total length of 4096
plus the sum of the six area lengths. -/
theorem marshalBinary_layout (f : File) :
    (marshalBinary f).length
        = 4096 + ((List.range Areas).map (fun i => (f.rom.getD i []).length)).sum
  ∧ (marshalBinary f).take 4 = [78, 69, 79, 1]
  ∧ ((marshalBinary f).drop 4).take 4 = le32 (f.size.getD 0 0)
  ∧ ((marshalBinary f).drop 8).take 4 = le32 (f.size.getD 1 0)
  ∧ ((marshalBinary f).drop 12).take 4 = le32 (f.size.getD 2 0)
  ∧ ((marshalBinary f).drop 16).take 4 = le32 (f.size.getD 3 0)
  ∧ ((marshalBinary f).drop 20).take 4 = le32 (f.size.getD 4 0)
  ∧ ((marshalBinary f).drop 24).take 4 = le32 (f.size.getD 5 0)
  ∧ ((marshalBinary f).drop 28).take 4 = le32 f.year
  ∧ ((marshalBinary f).drop 32).take 4 = le32 f.genre
  ∧ ((marshalBinary f).drop 36).take 4 = le32 f.screenshot
  ∧ ((marshalBinary f).drop 40).take 4 = le32 f.ngh
  ∧ ((marshalBinary f).drop 44).take 33 = goCopyField f.name 33
  ∧ ((marshalBinary f).drop 77).take 17 = goCopyField f.manufacturer 17
  ∧ ((marshalBinary f).drop 94).take 4002 = List.replicate 4002 (0:Nat)
  ∧ (marshalBinary f).drop 4096
      = f.rom.getD 0 [] ++ f.rom.getD 1 [] ++ f.rom.getD 2 [] ++ f.rom.getD 3 [] ++ f.rom.getD 4 [] ++ f.rom.getD 5 [] := by
  refine ⟨?_, ?_, ?_, ?_, ?_, ?_, ?_, ?_, ?_, ?_, ?_, ?_, ?_, ?_, ?_, ?_⟩
  · simp only [marshalBinary, show List.range Areas = [0, 1, 2, 3, 4, 5] from rfl,
      List.map_cons, List.map_nil, List.flatten_cons, List.flatten_nil, List.append_nil,
      List.length_append, List.length_flatten, le32_length, goCopyField_length,
      List.length_replicate, List.length_cons, List.length_nil, List.map_map, List.sum_cons,
      List.sum_nil, Function.comp, nameLength, manufacturerLength]
    omega
  · rw [show marshalBinary f = [78, 69, 79, 1] ++ (le32 (f.size.getD 0 0) ++ le32 (f.size.getD 1 0) ++ le32 (f.size.getD 2 0) ++ le32 (f.size.getD 3 0) ++ le32 (f.size.getD 4 0) ++ le32 (f.size.getD 5 0) ++ le32 f.year ++ le32 f.genre ++ le32 f.screenshot ++ le32 f.ngh ++ goCopyField f.name 33 ++ goCopyField f.manufacturer 17 ++ List.replicate 4002 (0:Nat) ++ f.rom.getD 0 [] ++ f.rom.getD 1 [] ++ f.rom.getD 2 [] ++ f.rom.getD 3 [] ++ f.rom.getD 4 [] ++ f.rom.getD 5 []) from by
      simp only [marshalBinary, show List.range Areas = [0, 1, 2, 3, 4, 5] from rfl,
        List.map_cons, List.map_nil, List.flatten_cons, List.flatten_nil,
        List.append_nil, List.append_assoc, nameLength, manufacturerLength]]
    exact List.take_left' (by simp)
  · rw [show marshalBinary f = ([78, 69, 79, 1]) ++ (le32 (f.size.getD 0 0) ++ (le32 (f.size.getD 1 0) ++ le32 (f.size.getD 2 0) ++ le32 (f.size.getD 3 0) ++ le32 (f.size.getD 4 0) ++ le32 (f.size.getD 5 0) ++ le32 f.year ++ le32 f.genre ++ le32 f.screenshot ++ le32 f.ngh ++ goCopyField f.name 33 ++ goCopyField f.manufacturer 17 ++ List.replicate 4002 (0:Nat) ++ f.rom.getD 0 [] ++ f.rom.getD 1 [] ++ f.rom.getD 2 [] ++ f.rom.getD 3 [] ++ f.rom.getD 4 [] ++ f.rom.getD 5 [])) from by
      simp only [marshalBinary, show List.range Areas = [0, 1, 2, 3, 4, 5] from rfl,
        List.map_cons, List.map_nil, List.flatten_cons, List.flatten_nil,
        List.append_nil, List.append_assoc, nameLength, manufacturerLength]]
    rw [List.drop_left' (by simp only [List.length_append, List.length_cons, List.length_nil,
      List.length_replicate, le32_length, goCopyField_length]; try omega)]
    exact List.take_left' (by simp only [List.length_append, List.length_cons, List.length_nil,
      List.length_replicate, le32_length, goCopyField_length]; try omega)
  · rw [show marshalBinary f = ([78, 69, 79, 1] ++ le32 (f.size.getD 0 0)) ++ (le32 (f.size.getD 1 0) ++ (le32 (f.size.getD 2 0) ++ le32 (f.size.getD 3 0) ++ le32 (f.size.getD 4 0) ++ le32 (f.size.getD 5 0) ++ le32 f.year ++ le32 f.genre ++ le32 f.screenshot ++ le32 f.ngh ++ goCopyField f.name 33 ++ goCopyField f.manufacturer 17 ++ List.replicate 4002 (0:Nat) ++ f.rom.getD 0 [] ++ f.rom.getD 1 [] ++ f.rom.getD 2 [] ++ f.rom.getD 3 [] ++ f.rom.getD 4 [] ++ f.rom.getD 5 [])) from by
      simp only [marshalBinary, show List.range Areas = [0, 1, 2, 3, 4, 5] from rfl,
        List.map_cons, List.map_nil, List.flatten_cons, List.flatten_nil,
        List.append_nil, List.append_assoc, nameLength, manufacturerLength]]
    rw [List.drop_left' (by simp only [List.length_append, List.length_cons, List.length_nil,
      List.length_replicate, le32_length, goCopyField_length]; try omega)]
    exact List.take_left' (by simp only [List.length_append, List.length_cons, List.length_nil,
      List.length_replicate, le32_length, goCopyField_length]; try omega)
  · rw [show marshalBinary f = ([78, 69, 79, 1] ++ le32 (f.size.getD 0 0) ++ le32 (f.size.getD 1 0)) ++ (le32 (f.size.getD 2 0) ++ (le32 (f.size.getD 3 0) ++ le32 (f.size.getD 4 0) ++ le32 (f.size.getD 5 0) ++ le32 f.year ++ le32 f.genre ++ le32 f.screenshot ++ le32 f.ngh ++ goCopyField f.name 33 ++ goCopyField f.manufacturer 17 ++ List.replicate 4002 (0:Nat) ++ f.rom.getD 0 [] ++ f.rom.getD 1 [] ++ f.rom.getD 2 [] ++ f.rom.getD 3 [] ++ f.rom.getD 4 [] ++ f.rom.getD 5 [])) from by
      simp only [marshalBinary, show List.range Areas = [0, 1, 2, 3, 4, 5] from rfl,
        List.map_cons, List.map_nil, List.flatten_cons, List.flatten_nil,
        List.append_nil, List.append_assoc, nameLength, manufacturerLength]]
    rw [List.drop_left' (by simp only [List.length_append, List.length_cons, List.length_nil,
      List.length_replicate, le32_length, goCopyField_length]; try omega)]
    exact List.take_left' (by simp only [List.length_append, List.length_cons, List.length_nil,
      List.length_replicate, le32_length, goCopyField_length]; try omega)
  · rw [show marshalBinary f = ([78, 69, 79, 1] ++ le32 (f.size.getD 0 0) ++ le32 (f.size.getD 1 0) ++ le32 (f.size.getD 2 0)) ++ (le32 (f.size.getD 3 0) ++ (le32 (f.size.getD 4 0) ++ le32 (f.size.getD 5 0) ++ le32 f.year ++ le32 f.genre ++ le32 f.screenshot ++ le32 f.ngh ++ goCopyField f.name 33 ++ goCopyField f.manufacturer 17 ++ List.replicate 4002 (0:Nat) ++ f.rom.getD 0 [] ++ f.rom.getD 1 [] ++ f.rom.getD 2 [] ++ f.rom.getD 3 [] ++ f.rom.getD 4 [] ++ f.rom.getD 5 [])) from by
      simp only [marshalBinary, show List.range Areas = [0, 1, 2, 3, 4, 5] from rfl,
        List.map_cons, List.map_nil, List.flatten_cons, List.flatten_nil,
        List.append_nil, List.append_assoc, nameLength, manufacturerLength]]
    rw [List.drop_left' (by simp only [List.length_append, List.length_cons, List.length_nil,
      List.length_replicate, le32_length, goCopyField_length]; try omega)]
    exact List.take_left' (by simp only [List.length_append, List.length_cons, List.length_nil,
      List.length_replicate, le32_length, goCopyField_length]; try omega)
  · rw [show marshalBinary f = ([78, 69, 79, 1] ++ le32 (f.size.getD 0 0) ++ le32 (f.size.getD 1 0) ++ le32 (f.size.getD 2 0) ++ le32 (f.size.getD 3 0)) ++ (le32 (f.size.getD 4 0) ++ (le32 (f.size.getD 5 0) ++ le32 f.year ++ le32 f.genre ++ le32 f.screenshot ++ le32 f.ngh ++ goCopyField f.name 33 ++ goCopyField f.manufacturer 17 ++ List.replicate 4002 (0:Nat) ++ f.rom.getD 0 [] ++ f.rom.getD 1 [] ++ f.rom.getD 2 [] ++ f.rom.getD 3 [] ++ f.rom.getD 4 [] ++ f.rom.getD 5 [])) from by
      simp only [marshalBinary, show List.range Areas = [0, 1, 2, 3, 4, 5] from rfl,
        List.map_cons, List.map_nil, List.flatten_cons, List.flatten_nil,
        List.append_nil, List.append_assoc, nameLength, manufacturerLength]]
    rw [List.drop_left' (by simp only [List.length_append, List.length_cons, List.length_nil,
      List.length_replicate, le32_length, goCopyField_length]; try omega)]
    exact List.take_left' (by simp only [List.length_append, List.length_cons, List.length_nil,
      List.length_replicate, le32_length, goCopyField_length]; try omega)
  · rw [show marshalBinary f = ([78, 69, 79, 1] ++ le32 (f.size.getD 0 0) ++ le32 (f.size.getD 1 0) ++ le32 (f.size.getD 2 0) ++ le32 (f.size.getD 3 0) ++ le32 (f.size.getD 4 0)) ++ (le32 (f.size.getD 5 0) ++ (le32 f.year ++ le32 f.genre ++ le32 f.screenshot ++ le32 f.ngh ++ goCopyField f.name 33 ++ goCopyField f.manufacturer 17 ++ List.replicate 4002 (0:Nat) ++ f.rom.getD 0 [] ++ f.rom.getD 1 [] ++ f.rom.getD 2 [] ++ f.rom.getD 3 [] ++ f.rom.getD 4 [] ++ f.rom.getD 5 [])) from by
      simp only [marshalBinary, show List.range Areas = [0, 1, 2, 3, 4, 5] from rfl,
        List.map_cons, List.map_nil, List.flatten_cons, List.flatten_nil,
        List.append_nil, List.append_assoc, nameLength, manufacturerLength]]
    rw [List.drop_left' (by simp only [List.length_append, List.length_cons, List.length_nil,
      List.length_replicate, le32_length, goCopyField_length]; try omega)]
    exact List.take_left' (by simp only [List.length_append, List.length_cons, List.length_nil,
      List.length_replicate, le32_length, goCopyField_length]; try omega)
  · rw [show marshalBinary f = ([78, 69, 79, 1] ++ le32 (f.size.getD 0 0) ++ le32 (f.size.getD 1 0) ++ le32 (f.size.getD 2 0) ++ le32 (f.size.getD 3 0) ++ le32 (f.size.getD 4 0) ++ le32 (f.size.getD 5 0)) ++ (le32 f.year ++ (le32 f.genre ++ le32 f.screenshot ++ le32 f.ngh ++ goCopyField f.name 33 ++ goCopyField f.manufacturer 17 ++ List.replicate 4002 (0:Nat) ++ f.rom.getD 0 [] ++ f.rom.getD 1 [] ++ f.rom.getD 2 [] ++ f.rom.getD 3 [] ++ f.rom.getD 4 [] ++ f.rom.getD 5 [])) from by
      simp only [marshalBinary, show List.range Areas = [0, 1, 2, 3, 4, 5] from rfl,
        List.map_cons, List.map_nil, List.flatten_cons, List.flatten_nil,
        List.append_nil, List.append_assoc, nameLength, manufacturerLength]]
    rw [List.drop_left' (by simp only [List.length_append, List.length_cons, List.length_nil,
      List.length_replicate, le32_length, goCopyField_length]; try omega)]
    exact List.take_left' (by simp only [List.length_append, List.length_cons, List.length_nil,
      List.length_replicate, le32_length, goCopyField_length]; try omega)
  · rw [show marshalBinary f = ([78, 69, 79, 1] ++ le32 (f.size.getD 0 0) ++ le32 (f.size.getD 1 0) ++ le32 (f.size.getD 2 0) ++ le32 (f.size.getD 3 0) ++ le32 (f.size.getD 4 0) ++ le32 (f.size.getD 5 0) ++ le32 f.year) ++ (le32 f.genre ++ (le32 f.screenshot ++ le32 f.ngh ++ goCopyField f.name 33 ++ goCopyField f.manufacturer 17 ++ List.replicate 4002 (0:Nat) ++ f.rom.getD 0 [] ++ f.rom.getD 1 [] ++ f.rom.getD 2 [] ++ f.rom.getD 3 [] ++ f.rom.getD 4 [] ++ f.rom.getD 5 [])) from by
      simp only [marshalBinary, show List.range Areas = [0, 1, 2, 3, 4, 5] from rfl,
        List.map_cons, List.map_nil, List.flatten_cons, List.flatten_nil,
        List.append_nil, List.append_assoc, nameLength, manufacturerLength]]
    rw [List.drop_left' (by simp only [List.length_append, List.length_cons, List.length_nil,
      List.length_replicate, le32_length, goCopyField_length]; try omega)]
    exact List.take_left' (by simp only [List.length_append, List.length_cons, List.length_nil,
      List.length_replicate, le32_length, goCopyField_length]; try omega)
  · rw [show marshalBinary f = ([78, 69, 79, 1] ++ le32 (f.size.getD 0 0) ++ le32 (f.size.getD 1 0) ++ le32 (f.size.getD 2 0) ++ le32 (f.size.getD 3 0) ++ le32 (f.size.getD 4 0) ++ le32 (f.size.getD 5 0) ++ le32 f.year ++ le32 f.genre) ++ (le32 f.screenshot ++ (le32 f.ngh ++ goCopyField f.name 33 ++ goCopyField f.manufacturer 17 ++ List.replicate 4002 (0:Nat) ++ f.rom.getD 0 [] ++ f.rom.getD 1 [] ++ f.rom.getD 2 [] ++ f.rom.getD 3 [] ++ f.rom.getD 4 [] ++ f.rom.getD 5 [])) from by
      simp only [marshalBinary, show List.range Areas = [0, 1, 2, 3, 4, 5] from rfl,
        List.map_cons, List.map_nil, List.flatten_cons, List.flatten_nil,
        List.append_nil, List.append_assoc, nameLength, manufacturerLength]]
    rw [List.drop_left' (by simp only [List.length_append, List.length_cons, List.length_nil,
      List.length_replicate, le32_length, goCopyField_length]; try omega)]
    exact List.take_left' (by simp only [List.length_append, List.length_cons, List.length_nil,
      List.length_replicate, le32_length, goCopyField_length]; try omega)
  · rw [show marshalBinary f = ([78, 69, 79, 1] ++ le32 (f.size.getD 0 0) ++ le32 (f.size.getD 1 0) ++ le32 (f.size.getD 2 0) ++ le32 (f.size.getD 3 0) ++ le32 (f.size.getD 4 0) ++ le32 (f.size.getD 5 0) ++ le32 f.year ++ le32 f.genre ++ le32 f.screenshot) ++ (le32 f.ngh ++ (goCopyField f.name 33 ++ goCopyField f.manufacturer 17 ++ List.replicate 4002 (0:Nat) ++ f.rom.getD 0 [] ++ f.rom.getD 1 [] ++ f.rom.getD 2 [] ++ f.rom.getD 3 [] ++ f.rom.getD 4 [] ++ f.rom.getD 5 [])) from by
      simp only [marshalBinary, show List.range Areas = [0, 1, 2, 3, 4, 5] from rfl,
        List.map_cons, List.map_nil, List.flatten_cons, List.flatten_nil,
        List.append_nil, List.append_assoc, nameLength, manufacturerLength]]
    rw [List.drop_left' (by simp only [List.length_append, List.length_cons, List.length_nil,
      List.length_replicate, le32_length, goCopyField_length]; try omega)]
    exact List.take_left' (by simp only [List.length_append, List.length_cons, List.length_nil,
      List.length_replicate, le32_length, goCopyField_length]; try omega)
  · rw [show marshalBinary f = ([78, 69, 79, 1] ++ le32 (f.size.getD 0 0) ++ le32 (f.size.getD 1 0) ++ le32 (f.size.getD 2 0) ++ le32 (f.size.getD 3 0) ++ le32 (f.size.getD 4 0) ++ le32 (f.size.getD 5 0) ++ le32 f.year ++ le32 f.genre ++ le32 f.screenshot ++ le32 f.ngh) ++ (goCopyField f.name 33 ++ (goCopyField f.manufacturer 17 ++ List.replicate 4002 (0:Nat) ++ f.rom.getD 0 [] ++ f.rom.getD 1 [] ++ f.rom.getD 2 [] ++ f.rom.getD 3 [] ++ f.rom.getD 4 [] ++ f.rom.getD 5 [])) from by
      simp only [marshalBinary, show List.range Areas = [0, 1, 2, 3, 4, 5] from rfl,
        List.map_cons, List.map_nil, List.flatten_cons, List.flatten_nil,
        List.append_nil, List.append_assoc, nameLength, manufacturerLength]]
    rw [List.drop_left' (by simp only [List.length_append, List.length_cons, List.length_nil,
      List.length_replicate, le32_length, goCopyField_length]; try omega)]
    exact List.take_left' (by simp only [List.length_append, List.length_cons, List.length_nil,
      List.length_replicate, le32_length, goCopyField_length]; try omega)
  · rw [show marshalBinary f = ([78, 69, 79, 1] ++ le32 (f.size.getD 0 0) ++ le32 (f.size.getD 1 0) ++ le32 (f.size.getD 2 0) ++ le32 (f.size.getD 3 0) ++ le32 (f.size.getD 4 0) ++ le32 (f.size.getD 5 0) ++ le32 f.year ++ le32 f.genre ++ le32 f.screenshot ++ le32 f.ngh ++ goCopyField f.name 33) ++ (goCopyField f.manufacturer 17 ++ (List.replicate 4002 (0:Nat) ++ f.rom.getD 0 [] ++ f.rom.getD 1 [] ++ f.rom.getD 2 [] ++ f.rom.getD 3 [] ++ f.rom.getD 4 [] ++ f.rom.getD 5 [])) from by
      simp only [marshalBinary, show List.range Areas = [0, 1, 2, 3, 4, 5] from rfl,
        List.map_cons, List.map_nil, List.flatten_cons, List.flatten_nil,
        List.append_nil, List.append_assoc, nameLength, manufacturerLength]]
    rw [List.drop_left' (by simp only [List.length_append, List.length_cons, List.length_nil,
      List.length_replicate, le32_length, goCopyField_length]; try omega)]
    exact List.take_left' (by simp only [List.length_append, List.length_cons, List.length_nil,
      List.length_replicate, le32_length, goCopyField_length]; try omega)
  · rw [show marshalBinary f = ([78, 69, 79, 1] ++ le32 (f.size.getD 0 0) ++ le32 (f.size.getD 1 0) ++ le32 (f.size.getD 2 0) ++ le32 (f.size.getD 3 0) ++ le32 (f.size.getD 4 0) ++ le32 (f.size.getD 5 0) ++ le32 f.year ++ le32 f.genre ++ le32 f.screenshot ++ le32 f.ngh ++ goCopyField f.name 33 ++ goCopyField f.manufacturer 17) ++ (List.replicate 4002 (0:Nat) ++ (f.rom.getD 0 [] ++ f.rom.getD 1 [] ++ f.rom.getD 2 [] ++ f.rom.getD 3 [] ++ f.rom.getD 4 [] ++ f.rom.getD 5 [])) from by
      simp only [marshalBinary, show List.range Areas = [0, 1, 2, 3, 4, 5] from rfl,
        List.map_cons, List.map_nil, List.flatten_cons, List.flatten_nil,
        List.append_nil, List.append_assoc, nameLength, manufacturerLength]]
    rw [List.drop_left' (by simp only [List.length_append, List.length_cons, List.length_nil,
      List.length_replicate, le32_length, goCopyField_length]; try omega)]
    exact List.take_left' (by simp only [List.length_append, List.length_cons, List.length_nil,
      List.length_replicate, le32_length, goCopyField_length]; try omega)
  · rw [show marshalBinary f = ([78, 69, 79, 1] ++ le32 (f.size.getD 0 0) ++ le32 (f.size.getD 1 0) ++ le32 (f.size.getD 2 0) ++ le32 (f.size.getD 3 0) ++ le32 (f.size.getD 4 0) ++ le32 (f.size.getD 5 0) ++ le32 f.year ++ le32 f.genre ++ le32 f.screenshot ++ le32 f.ngh ++ goCopyField f.name 33 ++ goCopyField f.manufacturer 17 ++ List.replicate 4002 (0:Nat)) ++ (f.rom.getD 0 [] ++ f.rom.getD 1 [] ++ f.rom.getD 2 [] ++ f.rom.getD 3 [] ++ f.rom.getD 4 [] ++ f.rom.getD 5 []) from by
      simp only [marshalBinary, show List.range Areas = [0, 1, 2, 3, 4, 5] from rfl,
        List.map_cons, List.map_nil, List.flatten_cons, List.flatten_nil,
        List.append_nil, List.append_assoc, nameLength, manufacturerLength]]
    exact List.drop_left' (by simp only [List.length_append, List.length_cons, List.length_nil,
      List.length_replicate, le32_length, goCopyField_length]; try omega)

/-! ## readAreas lemmas -/

theorem isEmpty_false_of_ne_nil {α : Type} {l : List α} (h : l ≠ []) :
    ¬ l.isEmpty = true := by
  simp [List.isEmpty_iff, h]

theorem readAreas_err_eof (sizes : List Nat) :
    ∀ (body : List Nat) (e : Err), readAreas sizes body = .error e → e = .eof := by
  induction sizes with
  | nil => intro body e h; simp [readAreas] at h
  | cons s rest ih =>
    intro body e h
    by_cases h0 : s = 0
    · subst h0
      rw [readAreas, if_pos rfl] at h
      cases hr : readAreas rest body with
      | error e2 =>
        rw [hr] at h
        simp only [Except.map] at h
        injection h with h
        exact h ▸ ih body e2 hr
      | ok v => rw [hr] at h; simp [Except.map] at h
    · by_cases hb : body.isEmpty
      · rw [readAreas, if_neg h0, if_pos hb] at h
        injection h with h
        exact h.symm
      · rw [readAreas, if_neg h0, if_neg hb] at h
        cases hr : readAreas rest (body.drop s) with
        | error e2 =>
          rw [hr] at h
          simp only [Except.map] at h
          injection h with h
          exact h ▸ ih _ e2 hr
        | ok v => rw [hr] at h; simp [Except.map] at h

theorem readAreas_zero_sum (sizes : List Nat) :
    ∀ (body : List Nat), sizes.sum = 0 →
      readAreas sizes body = .ok (sizes.map (fun _ => []), body) := by
  induction sizes with
  | nil => intro body _; simp [readAreas]
  | cons s rest ih =>
    intro body h
    simp only [List.sum_cons] at h
    have hs : s = 0 := by omega
    subst hs
    rw [readAreas, if_pos rfl, ih body (by omega)]
    simp [Except.map]

theorem readAreas_full (sizes : List Nat) :
    ∀ (body : List Nat), sizes.sum ≤ body.length →
      readAreas sizes body = .ok (sizeChunks sizes body, body.drop sizes.sum) := by
  induction sizes with
  | nil => intro body _; simp [readAreas, sizeChunks]
  | cons s rest ih =>
    intro body h
    simp only [List.sum_cons] at h
    by_cases h0 : s = 0
    · subst h0
      rw [readAreas, if_pos rfl, ih body (by omega)]
      simp [Except.map, sizeChunks]
    · have hbne : ¬ body.isEmpty = true := by
        apply isEmpty_false_of_ne_nil
        intro hb
        subst hb
        simp at h
        omega
      rw [readAreas, if_neg h0, if_neg hbne,
        ih (body.drop s) (by simp only [List.length_drop]; omega)]
      simp only [Except.map, sizeChunks, List.sum_cons]
      rw [show s - body.length = 0 by omega, List.replicate_zero, List.append_nil,
        List.drop_drop]

theorem readAreas_pos_sum_nil (sizes : List Nat) (h : 0 < sizes.sum) :
    readAreas sizes [] = .error .eof := by
  induction sizes with
  | nil => simp at h
  | cons s rest ih =>
    by_cases h0 : s = 0
    · subst h0
      rw [readAreas, if_pos rfl, ih (by simpa using h)]
      rfl
    · rw [readAreas, if_neg h0]
      simp

theorem readAreas_short (sizes : List Nat) :
    ∀ (body : List Nat), body.length < sizes.sum →
      readAreas sizes body = .error .eof
        ∨ ∃ roms, readAreas sizes body = .ok (roms, []) := by
  induction sizes with
  | nil => intro body h; simp at h
  | cons s rest ih =>
    intro body h
    simp only [List.sum_cons] at h
    by_cases h0 : s = 0
    · subst h0
      rw [readAreas, if_pos rfl]
      rcases ih body (by omega) with he | ⟨roms, hok⟩
      · rw [he]; left; rfl
      · rw [hok]; right; exact ⟨_, rfl⟩
    · by_cases hb : body = []
      · subst hb
        left
        exact readAreas_pos_sum_nil _ (by simp only [List.sum_cons]; omega)
      · rw [readAreas, if_neg h0, if_neg (isEmpty_false_of_ne_nil hb)]
        by_cases hlen : (body.drop s).length < rest.sum
        · rcases ih (body.drop s) hlen with he | ⟨roms, hok⟩
          · rw [he]; left; rfl
          · rw [hok]; right; exact ⟨_, rfl⟩
        · rw [readAreas_full rest (body.drop s) (by omega)]
          simp only [Except.map]
          rw [List.drop_drop]
          have h1 : List.drop (s + rest.sum) body = [] :=
            List.drop_eq_nil_of_le (by simp only [List.length_drop] at hlen; omega)
          rw [h1]
          exact Or.inr ⟨_, rfl⟩

/-- C3: with at least 4096 bytes of input, `UnmarshalBinary` returns the
`Invalid` error precisely when the signature or version byte is wrong, and
for a valid header it returns the `TooMuch` error precisely when bytes
remain after every declared area has been read in full, i.e. when the
input is strictly longer than 4096 plus the sum of the declared sizes; in
both cases the decode is rejected with an error. -/
theorem unmarshalBinary_invalid_tooMuch (b : List Nat) (h : 4096 ≤ b.length) :
    (unmarshalBinary b = .error .invalid
        ↔ ¬ (b.take 3 = [78, 69, 79] ∧ b.getD 3 0 = 1))
  ∧ ((b.take 3 = [78, 69, 79] ∧ b.getD 3 0 = 1) →
      (unmarshalBinary b = .error .tooMuch ↔ 4096 + (sizesOf b).sum < b.length)) := by
  constructor
  · constructor
    · intro hr
      intro hsig
      rw [unmarshalBinary, if_neg (by omega), if_pos hsig] at hr
      cases hra : readAreas (sizesOf b) (b.drop 4096) with
      | error e =>
        rw [hra] at hr
        injection hr with hr
        have := readAreas_err_eof _ _ _ hra
        subst this
        simp at hr
      | ok x =>
        rw [hra] at hr
        by_cases hrest : x.2.isEmpty <;> simp [hrest] at hr
    · intro hsig
      rw [unmarshalBinary, if_neg (by omega), if_neg hsig]
  · intro hsig
    rw [unmarshalBinary, if_neg (by omega), if_pos hsig]
    have hblen : (b.drop 4096).length = b.length - 4096 := by simp
    rcases Nat.lt_trichotomy (b.length) (4096 + (sizesOf b).sum) with hlt | heq | hgt
    · rcases readAreas_short (sizesOf b) (b.drop 4096) (by omega) with he | ⟨roms, hok⟩
      · rw [he]
        exact iff_of_false (by simp) (by omega)
      · rw [hok]
        exact iff_of_false (by simp) (by omega)
    · have h1 : (b.drop 4096).drop (sizesOf b).sum = [] :=
        List.drop_eq_nil_of_le (by simp only [List.length_drop]; omega)
      rw [readAreas_full (sizesOf b) (b.drop 4096) (by omega), h1]
      exact iff_of_false (by simp) (by omega)
    · rw [readAreas_full (sizesOf b) (b.drop 4096) (by omega)]
      have hne : (b.drop 4096).drop (sizesOf b).sum ≠ [] := by
        intro hcon
        have := congrArg List.length hcon
        simp only [List.length_drop, List.length_nil] at this
        omega
      constructor
      · intro _
        omega
      · intro _
        simp only [List.isEmpty_iff]
        rw [if_neg hne]

theorem unmarshalBinary_invalid_tooMuch_witness :
    4096 ≤ (List.replicate 4096 (0:Nat)).length
      ∧ unmarshalBinary (List.replicate 4096 0) = .error .invalid := by
  constructor
  · simp only [List.length_replicate]
    exact le_refl _
  · exact (unmarshalBinary_invalid_tooMuch (List.replicate 4096 0)
      (by simp only [List.length_replicate]; exact le_refl _)).1.2 (by decide)

theorem readAreas_last_short (sizes : List Nat) :
    ∀ (body : List Nat) (k : Nat),
      k < sizes.length →
      (∀ i, k < i → i < sizes.length → sizes.getD i 0 = 0) →
      0 < sizes.getD k 0 →
      (sizes.take k).sum < body.length →
      body.length < sizes.sum →
      ∃ roms, readAreas sizes body = .ok (roms, [])
        ∧ roms.getD k []
            = body.drop ((sizes.take k).sum)
              ++ List.replicate (sizes.getD k 0 - (body.length - (sizes.take k).sum)) 0 := by
  induction sizes with
  | nil => intro body k hk; simp at hk
  | cons s rest ih =>
    intro body k hk hzero hpos hlow hhigh
    match k with
    | 0 =>
      simp only [List.getD_cons_zero] at hpos
      simp only [List.take_zero, List.sum_nil] at hlow
      have hrest0 : rest.sum = 0 := by
        apply List.sum_eq_zero
        intro x hx
        obtain ⟨i, hi, rfl⟩ := List.mem_iff_getElem.mp hx
        have hz := hzero (i + 1) (by omega) (by simp only [List.length_cons]; omega)
        simp only [List.getD_cons_succ] at hz
        rwa [List.getD_eq_getElem _ _ hi] at hz
      have hbne : body ≠ [] := by
        intro hb; subst hb; simp at hlow
      have hhigh' : body.length < s := by
        simp only [List.sum_cons] at hhigh; omega
      rw [readAreas, if_neg (by omega), if_neg (isEmpty_false_of_ne_nil hbne),
        readAreas_zero_sum rest (body.drop s) hrest0]
      simp only [Except.map]
      have hnil : body.drop s = [] := List.drop_eq_nil_of_le (le_of_lt hhigh')
      rw [hnil]
      refine ⟨_, rfl, ?_⟩
      simp only [List.getD_cons_zero, List.take_zero, List.sum_nil, List.drop_zero,
        Nat.sub_zero]
      rw [List.take_of_length_le (le_of_lt hhigh')]
    | k + 1 =>
      have hk' : k < rest.length := by simp only [List.length_cons] at hk; omega
      have hzero' : ∀ i, k < i → i < rest.length → rest.getD i 0 = 0 := by
        intro i hi1 hi2
        have := hzero (i + 1) (by omega) (by simp only [List.length_cons]; omega)
        simpa using this
      by_cases h0 : s = 0
      · subst h0
        rw [readAreas, if_pos rfl]
        obtain ⟨roms, hok, hgd⟩ := ih body k hk' hzero'
          (by simpa using hpos)
          (by simpa using hlow)
          (by simpa using hhigh)
        rw [hok]
        simp only [Except.map]
        refine ⟨_, rfl, ?_⟩
        simpa using hgd
      · have hlow' : (rest.take k).sum < (body.drop s).length := by
          simp only [List.take_succ_cons, List.sum_cons] at hlow
          simp only [List.length_drop]
          omega
        have hbne : body ≠ [] := by
          intro hb
          subst hb
          simp only [List.take_succ_cons, List.sum_cons, List.length_nil] at hlow
          omega
        rw [readAreas, if_neg h0, if_neg (isEmpty_false_of_ne_nil hbne)]
        obtain ⟨roms, hok, hgd⟩ := ih (body.drop s) k hk' hzero'
          (by simpa using hpos)
          hlow'
          (by
            simp only [List.sum_cons] at hhigh
            simp only [List.length_drop]
            simp only [List.take_succ_cons, List.sum_cons] at hlow
            omega)
        rw [hok]
        simp only [Except.map]
        refine ⟨_, rfl, ?_⟩
        simp only [List.getD_cons_succ]
        rw [hgd, List.drop_drop]
        simp only [List.take_succ_cons, List.sum_cons, List.length_drop]
        congr 2
        simp only [List.take_succ_cons, List.sum_cons] at hlow
        omega

/-- C9: `UnmarshalBinary` does not reject missing body bytes.  For a
well-formed header whose declared sizes are zero after area `k`, a body
that stops short inside area `k` (with at least one byte of that area
present) decodes successfully, and the unread tail of area `k`'s buffer is
left zero-filled; there is no "too little data" error. -/
theorem unmarshalBinary_short_body (b : List Nat) (k : Nat)
    (hlen : 4096 ≤ b.length)
    (hsig : b.take 3 = [78, 69, 79] ∧ b.getD 3 0 = 1)
    (hk : k < Areas)
    (hzero : ∀ i, k < i → i < Areas → (sizesOf b).getD i 0 = 0)
    (hpos : 0 < (sizesOf b).getD k 0)
    (hlow : 4096 + ((sizesOf b).take k).sum < b.length)
    (hhigh : b.length < 4096 + (sizesOf b).sum) :
    ∃ f, unmarshalBinary b = .ok f
      ∧ f.rom.getD k []
          = b.drop (4096 + ((sizesOf b).take k).sum)
            ++ List.replicate
                ((sizesOf b).getD k 0 - (b.length - (4096 + ((sizesOf b).take k).sum))) 0 := by
  have hlen6 : (sizesOf b).length = Areas := by simp [sizesOf, Areas]
  obtain ⟨roms, hok, hgd⟩ := readAreas_last_short (sizesOf b) (b.drop 4096) k
    (by rw [hlen6]; exact hk)
    (by rw [hlen6]; exact hzero)
    hpos
    (by simp only [List.length_drop]; omega)
    (by simp only [List.length_drop]; omega)
  have hu : unmarshalBinary b
      = .ok { size := sizesOf b
              year := le32dec ((b.drop 28).take 4)
              genre := le32dec ((b.drop 32).take 4)
              screenshot := le32dec ((b.drop 36).take 4)
              ngh := le32dec ((b.drop 40).take 4)
              name := trimNulRight ((b.drop 44).take nameLength)
              manufacturer := trimNulRight ((b.drop 77).take manufacturerLength)
              rom := roms } := by
    rw [unmarshalBinary, if_neg (by omega), if_pos hsig, hok]
    rfl
  refine ⟨_, hu, ?_⟩
  dsimp only
  rw [hgd, List.drop_drop]
  simp only [List.length_drop]
  rw [Nat.sub_sub]

set_option maxRecDepth 4096 in
theorem unmarshalBinary_short_body_witness :
    ∃ f, unmarshalBinary ([78, 69, 79, 1, 2] ++ List.replicate 4091 0 ++ [9]) = .ok f
      ∧ f.rom.getD 0 [] = [9, 0] := by
  have hs : sizesOf ([78, 69, 79, 1, 2] ++ List.replicate 4091 (0:Nat) ++ [9])
      = [2, 0, 0, 0, 0, 0] := by decide
  have hlen : ([78, 69, 79, 1, 2] ++ List.replicate 4091 (0:Nat) ++ [9]).length = 4097 := by
    simp only [List.length_append, List.length_replicate, List.length_cons, List.length_nil]
  obtain ⟨f, hok, hgd⟩ := unmarshalBinary_short_body
    ([78, 69, 79, 1, 2] ++ List.replicate 4091 0 ++ [9]) 0
    (by rw [hlen]; norm_num)
    ⟨by decide, by decide⟩
    (by norm_num [Areas])
    (by
      intro i h1 h2
      rw [hs]
      simp only [Areas] at h2
      interval_cases i <;> decide)
    (by rw [hs]; decide)
    (by rw [hs, hlen]; decide)
    (by rw [hs, hlen]; decide)
  refine ⟨f, hok, ?_⟩
  rw [hgd, hs, hlen]
  simp only [List.take_zero, List.sum_nil, Nat.add_zero, List.getD_cons_zero]
  rw [List.drop_left' (by
    simp only [List.length_append, List.length_replicate, List.length_cons, List.length_nil])]
  norm_num

/-! ## C2: codec round trip -/

theorem le32_le32dec (l : List Nat) (hl : l.length = 4) (hb : ∀ x ∈ l, x < 256) :
    le32 (le32dec l) = l := by
  match l, hl with
  | [a, b, c, d], _ =>
    have ha : a < 256 := hb a (by simp)
    have hb' : b < 256 := hb b (by simp)
    have hc : c < 256 := hb c (by simp)
    have hd : d < 256 := hb d (by simp)
    have hdec : le32dec [a, b, c, d] = a + 256 * b + 65536 * c + 16777216 * d := rfl
    rw [hdec, le32]
    simp only [List.cons.injEq, and_true]
    refine ⟨?_, ?_, ?_, ?_⟩ <;> omega

theorem trimNulRight_spec (s : List Nat) :
    trimNulRight s ++ List.replicate (s.length - (trimNulRight s).length) 0 = s := by
  have hsplit := List.takeWhile_append_dropWhile (fun x : Nat => x == 0) s.reverse
  have htw : s.reverse.takeWhile (fun x => x == 0)
      = List.replicate ((s.reverse.takeWhile (fun x : Nat => x == 0)).length) 0 := by
    rw [List.eq_replicate_iff]
    refine ⟨rfl, fun c hc => ?_⟩
    have := List.mem_takeWhile_imp hc
    simpa using this
  have hlen : (s.reverse.takeWhile (fun x : Nat => x == 0)).length
      + (s.reverse.dropWhile (fun x : Nat => x == 0)).length = s.length := by
    rw [← List.length_append, hsplit, List.length_reverse]
  have htl : (trimNulRight s).length
      = (s.reverse.dropWhile (fun x : Nat => x == 0)).length := by
    simp [trimNulRight]
  calc trimNulRight s ++ List.replicate (s.length - (trimNulRight s).length) 0
      = (s.reverse.dropWhile (fun x : Nat => x == 0)).reverse
          ++ List.replicate ((s.reverse.takeWhile (fun x : Nat => x == 0)).length) 0 := by
        rw [trimNulRight]
        congr 2
        simp only [trimNulRight, List.length_reverse] at htl ⊢
        omega
    _ = (s.reverse.dropWhile (fun x : Nat => x == 0)).reverse
          ++ (s.reverse.takeWhile (fun x : Nat => x == 0)).reverse := by
        conv_rhs => rw [htw, List.reverse_replicate]
    _ = (s.reverse.takeWhile (fun x : Nat => x == 0)
          ++ s.reverse.dropWhile (fun x : Nat => x == 0)).reverse := by
        rw [List.reverse_append]
    _ = s := by rw [hsplit, List.reverse_reverse]

theorem trimNulRight_length_le (s : List Nat) : (trimNulRight s).length ≤ s.length := by
  simp only [trimNulRight, List.length_reverse]
  calc (s.reverse.dropWhile (fun x : Nat => x == 0)).length
      ≤ s.reverse.length := ((List.dropWhile_sublist _).length_le)
    _ = s.length := List.length_reverse s

theorem goCopyField_trimNulRight (s : List Nat) (n : Nat) (h : s.length = n) :
    goCopyField (trimNulRight s) n = s := by
  have hle : (trimNulRight s).length ≤ n := h ▸ trimNulRight_length_le s
  rw [goCopyField, List.take_of_length_le hle, ← h]
  exact trimNulRight_spec s

theorem sizeChunks_length (sizes : List Nat) :
    ∀ body, (sizeChunks sizes body).length = sizes.length := by
  induction sizes with
  | nil => intro body; simp [sizeChunks]
  | cons s rest ih => intro body; simp [sizeChunks, ih]

theorem sizeChunks_flatten (sizes : List Nat) :
    ∀ body, sizes.sum = body.length → (sizeChunks sizes body).flatten = body := by
  induction sizes with
  | nil =>
    intro body h
    simp only [List.sum_nil] at h
    simp [sizeChunks, (List.eq_nil_of_length_eq_zero h.symm)]
  | cons s rest ih =>
    intro body h
    simp only [List.sum_cons] at h
    rw [sizeChunks, List.flatten_cons, ih (body.drop s) (by simp; omega)]
    exact List.take_append_drop s body

theorem drop_glue {α : Type} (l : List α) (n m : Nat) :
    (l.drop n).take m ++ l.drop (n + m) = l.drop n := by
  rw [← List.drop_drop]
  exact List.take_append_drop m (l.drop n)

theorem drop_offset {α : Type} (l₁ l₂ : List α) (n k m : Nat)
    (h1 : l₁.length = n) (h2 : m = n + k) : (l₁ ++ l₂).drop m = l₂.drop k := by
  subst h2
  rw [← h1, List.drop_append]

/-- C2: for every byte sequence that decodes successfully and satisfies
the cart validity invariants — here: the total length equals 4096 plus the
sum of the declared sizes (each declared area size equal to its body
length and no trailing bytes), the reserved header bytes are zero, and
every entry is a byte — re-encoding the decoded `File` with
`MarshalBinary` yields exactly the input.  The signature, version and
NUL-padding invariants are consequences of a successful decode. -/
theorem unmarshal_marshal_roundtrip (b : List Nat) (f : File)
    (hok : unmarshalBinary b = .ok f)
    (hbytes : ∀ x ∈ b, x < 256)
    (hlen : b.length = 4096 + (sizesOf b).sum)
    (hres : (b.drop 94).take 4002 = List.replicate 4002 0) :
    marshalBinary f = b := by
  have h4096 : 4096 ≤ b.length := by omega
  rw [unmarshalBinary, if_neg (by omega)] at hok
  by_cases hsig : b.take 3 = [78, 69, 79] ∧ b.getD 3 0 = 1
  swap
  · rw [if_neg hsig] at hok
    exact absurd hok (by simp)
  rw [if_pos hsig,
    readAreas_full (sizesOf b) (b.drop 4096) (by simp only [List.length_drop]; omega)] at hok
  have hnil : (b.drop 4096).drop (sizesOf b).sum = [] :=
    List.drop_eq_nil_of_le (by simp only [List.length_drop]; omega)
  rw [hnil] at hok
  have hf : f = { size := sizesOf b
                  year := le32dec ((b.drop 28).take 4)
                  genre := le32dec ((b.drop 32).take 4)
                  screenshot := le32dec ((b.drop 36).take 4)
                  ngh := le32dec ((b.drop 40).take 4)
                  name := trimNulRight ((b.drop 44).take nameLength)
                  manufacturer := trimNulRight ((b.drop 77).take manufacturerLength)
                  rom := sizeChunks (sizesOf b) (b.drop 4096) } :=
    (Except.ok.inj hok).symm
  subst hf
  have hsz : ∀ i, i < Areas →
      (sizesOf b).getD i 0 = le32dec ((b.drop (4 + 4 * i)).take 4) := by
    intro i hi
    rw [sizesOf, List.getD_eq_getElem _ _ (by simpa [Areas] using hi)]
    simp
  have hchunk : ∀ o : Nat, o + 4 ≤ 4096 →
      le32 (le32dec ((b.drop o).take 4)) = (b.drop o).take 4 := by
    intro o ho
    apply le32_le32dec
    · simp only [List.length_take, List.length_drop]
      omega
    · intro x hx
      exact hbytes x (List.mem_of_mem_drop (List.mem_of_mem_take hx))
  have hs0 : (sizesOf b).getD 0 0 = le32dec ((b.drop 4).take 4) := by
    simpa using hsz 0 (by norm_num [Areas])
  have hs1 : (sizesOf b).getD 1 0 = le32dec ((b.drop 8).take 4) := by
    simpa using hsz 1 (by norm_num [Areas])
  have hs2 : (sizesOf b).getD 2 0 = le32dec ((b.drop 12).take 4) := by
    simpa using hsz 2 (by norm_num [Areas])
  have hs3 : (sizesOf b).getD 3 0 = le32dec ((b.drop 16).take 4) := by
    simpa using hsz 3 (by norm_num [Areas])
  have hs4 : (sizesOf b).getD 4 0 = le32dec ((b.drop 20).take 4) := by
    simpa using hsz 4 (by norm_num [Areas])
  have hs5 : (sizesOf b).getD 5 0 = le32dec ((b.drop 24).take 4) := by
    simpa using hsz 5 (by norm_num [Areas])
  have hsig4 : b.take 4 = [78, 69, 79, 1] := by
    have h3 : 3 < b.length := by omega
    have hb3 : b[3] = 1 := by
      rw [← List.getD_eq_getElem b 0 h3]
      exact hsig.2
    rw [show (4:Nat) = 3 + 1 from rfl, List.take_succ, List.getElem?_eq_getElem h3,
      hsig.1, hb3]
    rfl
  simp only [marshalBinary]
  rw [map_range_getD_self (sizeChunks (sizesOf b) (b.drop 4096)) ([] : List Nat) Areas
      (by rw [sizeChunks_length]; simp [sizesOf, Areas]),
    sizeChunks_flatten (sizesOf b) (b.drop 4096) (by simp only [List.length_drop]; omega)]
  rw [show List.range Areas = [0, 1, 2, 3, 4, 5] from rfl]
  simp only [List.map_cons, List.map_nil, List.flatten_cons, List.flatten_nil,
    List.append_nil, nameLength, manufacturerLength]
  rw [hs0, hs1, hs2, hs3, hs4, hs5,
    hchunk 4 (by norm_num), hchunk 8 (by norm_num), hchunk 12 (by norm_num),
    hchunk 16 (by norm_num), hchunk 20 (by norm_num), hchunk 24 (by norm_num),
    hchunk 28 (by norm_num), hchunk 32 (by norm_num), hchunk 36 (by norm_num),
    hchunk 40 (by norm_num)]
  rw [goCopyField_trimNulRight ((b.drop 44).take 33) 33
      (by simp only [List.length_take, List.length_drop]; omega),
    goCopyField_trimNulRight ((b.drop 77).take 17) 17
      (by simp only [List.length_take, List.length_drop]; omega)]
  rw [← hres, ← hsig4]
  simp only [List.append_assoc]
  rw [show (4096:Nat) = 94 + 4002 by norm_num, drop_glue]
  rw [show (94:Nat) = 77 + 17 by norm_num, drop_glue]
  rw [show (77:Nat) = 44 + 33 by norm_num, drop_glue]
  rw [show (44:Nat) = 40 + 4 by norm_num, drop_glue]
  rw [show (40:Nat) = 36 + 4 by norm_num, drop_glue]
  rw [show (36:Nat) = 32 + 4 by norm_num, drop_glue]
  rw [show (32:Nat) = 28 + 4 by norm_num, drop_glue]
  rw [show (28:Nat) = 24 + 4 by norm_num, drop_glue]
  rw [show (24:Nat) = 20 + 4 by norm_num, drop_glue]
  rw [show (20:Nat) = 16 + 4 by norm_num, drop_glue]
  rw [show (16:Nat) = 12 + 4 by norm_num, drop_glue]
  rw [show (12:Nat) = 8 + 4 by norm_num, drop_glue]
  rw [show (8:Nat) = 4 + 4 by norm_num, drop_glue]
  exact List.take_append_drop 4 b

theorem unmarshal_marshal_roundtrip_witness :
    marshalBinary
        { size := [0, 0, 0, 0, 0, 0]
          year := 0
          genre := 0
          screenshot := 0
          ngh := 0
          name := []
          manufacturer := []
          rom := [[], [], [], [], [], []] }
      = [78, 69, 79, 1] ++ List.replicate 4092 0 := by
  have hBlen : ([78, 69, 79, 1] ++ List.replicate 4092 (0:Nat)).length = 4096 := by
    simp only [List.length_append, List.length_cons, List.length_nil, List.length_replicate]
  have hs : sizesOf ([78, 69, 79, 1] ++ List.replicate 4092 (0:Nat)) = [0, 0, 0, 0, 0, 0] := by
    decide
  have hdrop : ([78, 69, 79, 1] ++ List.replicate 4092 (0:Nat)).drop 4096 = [] :=
    List.drop_eq_nil_of_le (by omega)
  apply unmarshal_marshal_roundtrip
  · rw [unmarshalBinary, if_neg (by omega), if_pos ⟨by decide, by decide⟩, hdrop,
      readAreas_zero_sum (sizesOf ([78, 69, 79, 1] ++ List.replicate 4092 (0:Nat))) []
        (by rw [hs]; decide)]
    rfl
  · intro x hx
    rcases List.mem_append.mp hx with h | h
    · simp only [List.mem_cons, List.not_mem_nil, or_false] at h
      rcases h with rfl | rfl | rfl | rfl <;> norm_num
    · rw [List.eq_of_mem_replicate h]
      norm_num
  · rw [hBlen, hs]
    decide
  · rw [drop_offset [78, 69, 79, 1] (List.replicate 4092 (0:Nat)) 4 90 94
        (by simp) (by norm_num),
      List.drop_replicate, List.take_replicate]
    norm_num

/-! ## C6: commonPReader -/

/-- C6: `commonPReader` partitions the area's members into patch members
(filename matches the pattern) and base members, each group in order; when
the first base member's declared size is 2 MiB the two 1 MiB halves of its
stream are swapped; the result is the concatenated patch bytes followed by
the base concatenation with its first `patch.length` bytes discarded — the
base concatenation with its head overlaid by the patch — and the output
length equals the sum of the base member sizes. -/
theorem commonPReader_spec (roms : List MameROM) (readers : List (List Nat))
    (re : Option (String → Bool)) (b0 : MameROM × List Nat)
    (bs : List (MameROM × List Nat))
    (hsz : ∀ p ∈ roms.zip readers, p.2.length = p.1.size)
    (hcons : (roms.zip readers).filter (fun x => ! isPatchROM re x.1) = b0 :: bs)
    (hpatch : (((roms.zip readers).filter (fun x => isPatchROM re x.1)).map
          (fun x => x.2)).flatten.length
        ≤ b0.1.size + (bs.map (fun x => x.1.size)).sum) :
    ∃ patch base,
      patch = (((roms.zip readers).filter (fun x => isPatchROM re x.1)).map
          (fun x => x.2)).flatten
      ∧ base = (if b0.1.size = twoMB then b0.2.drop oneMB ++ b0.2.take oneMB else b0.2)
          ++ (bs.map (fun x => x.2)).flatten
      ∧ commonPReader roms readers re = .ok (patch ++ base.drop patch.length)
      ∧ (patch ++ base.drop patch.length).length
          = b0.1.size + (bs.map (fun x => x.1.size)).sum := by
  have hb0 : b0 ∈ roms.zip readers := by
    have h1 : b0 ∈ (roms.zip readers).filter (fun x => ! isPatchROM re x.1) := by
      rw [hcons]
      exact List.mem_cons_self _ _
    exact List.mem_of_mem_filter h1
  have hb0len : b0.2.length = b0.1.size := hsz b0 hb0
  have hbs : ∀ p ∈ bs, p.2.length = p.1.size := by
    intro p hp
    have h2 : p ∈ (roms.zip readers).filter (fun x => ! isPatchROM re x.1) := by
      rw [hcons]
      exact List.mem_cons_of_mem _ hp
    exact hsz p (List.mem_of_mem_filter h2)
  have hbsflat : ((bs.map (fun x => x.2)).flatten).length
      = (bs.map (fun x => x.1.size)).sum := by
    rw [List.length_flatten, List.map_map]
    congr 1
    apply List.map_congr_left
    intro p hp
    simpa using hbs p hp
  refine ⟨_, _, rfl, rfl, ?_, ?_⟩
  · simp only [commonPReader]
    rw [hcons]
    simp only []
    by_cases htwo : b0.1.size = twoMB
    · rw [if_pos htwo,
        if_neg (show ¬ b0.2.length < oneMB by
          rw [hb0len, htwo, oneMB, twoMB]; norm_num)]
      simp only []
      rw [if_neg (show ¬ ((b0.2.drop oneMB ++ b0.2.take oneMB)
            ++ (bs.map (fun x => x.2)).flatten).length
          < (((roms.zip readers).filter (fun x => isPatchROM re x.1)).map
              (fun x => x.2)).flatten.length from by
        simp only [List.length_append, List.length_drop, List.length_take]
        omega)]
      rw [if_pos htwo]
    · rw [if_neg htwo]
      simp only []
      rw [if_neg (show ¬ (b0.2 ++ (bs.map (fun x => x.2)).flatten).length
          < (((roms.zip readers).filter (fun x => isPatchROM re x.1)).map
              (fun x => x.2)).flatten.length from by
        simp only [List.length_append]
        omega)]
      rw [if_neg htwo]
  · by_cases htwo : b0.1.size = twoMB
    · rw [if_pos htwo]
      simp only [List.length_append, List.length_drop, List.length_take]
      omega
    · rw [if_neg htwo]
      simp only [List.length_append, List.length_drop]
      omega

theorem commonPReader_spec_witness :
    ∃ patch base,
      patch = ((([(⟨"a.ep", 2⟩ : MameROM), ⟨"b.p1", 4⟩].zip
            [[1, 2], [3, 4, 5, 6]]).filter
          (fun x => isPatchROM (some (fun s => s == "a.ep")) x.1)).map
            (fun x => x.2)).flatten
      ∧ base = (if (⟨"b.p1", 4⟩ : MameROM).size = twoMB
            then ([3, 4, 5, 6] : List Nat).drop oneMB ++ ([3, 4, 5, 6] : List Nat).take oneMB
            else [3, 4, 5, 6])
          ++ (([] : List (MameROM × List Nat)).map (fun x => x.2)).flatten
      ∧ commonPReader [⟨"a.ep", 2⟩, ⟨"b.p1", 4⟩] [[1, 2], [3, 4, 5, 6]]
          (some (fun s => s == "a.ep")) = .ok (patch ++ base.drop patch.length)
      ∧ (patch ++ base.drop patch.length).length
          = (⟨"b.p1", 4⟩ : MameROM).size
            + (([] : List (MameROM × List Nat)).map (fun x => x.1.size)).sum :=
  commonPReader_spec [⟨"a.ep", 2⟩, ⟨"b.p1", 4⟩] [[1, 2], [3, 4, 5, 6]]
    (some (fun s => s == "a.ep")) (⟨"b.p1", 4⟩, [3, 4, 5, 6]) []
    (by decide) (by decide) (by decide)

/-! ## C8: K2K2 program shuffle -/

theorem goCopyAt_length (dst : List Nat) (off : Nat) (src : List Nat) :
    (goCopyAt dst off src).length = dst.length := by
  simp only [goCopyAt, List.length_append, List.length_take, List.length_drop]
  omega

theorem goCopyAt_getElem_outside (dst : List Nat) (off : Nat) (src : List Nat)
    (j : Nat) (h : j < off ∨ off + src.length ≤ j) :
    (goCopyAt dst off src)[j]? = dst[j]? := by
  by_cases hjL : j < dst.length
  · rcases h with h | h
    · rw [goCopyAt, List.getElem?_append,
        if_pos (by simp only [List.length_append, List.length_take]; omega),
        List.getElem?_append,
        if_pos (by simp only [List.length_take]; omega),
        List.getElem?_take, if_pos h]
    · have hAB : (dst.take off ++ src.take (dst.length - off)).length ≤ j := by
        simp only [List.length_append, List.length_take]
        omega
      rw [goCopyAt, List.getElem?_append_right hAB, List.getElem?_drop]
      congr 1
      simp only [List.length_append, List.length_take]
      omega
  · rw [List.getElem?_eq_none (by rw [goCopyAt_length]; omega),
      List.getElem?_eq_none (by omega)]

theorem k2k2Fold_frame (dst : List Nat) :
    ∀ (L : List (Nat × Nat)) (acc b : List Nat),
      (∀ p ∈ L, p.1 < 8) →
      acc.length = b.length →
      (∀ j, j < 0x100000 → acc[j]? = b[j]?) →
      (∀ j, 0x500000 ≤ j → acc[j]? = b[j]?) →
      (L.foldl (fun a ix =>
          goCopyAt a (0x100000 + ix.1 * 0x80000) ((dst.drop ix.2).take 0x80000)) acc).length
          = b.length
        ∧ (∀ j, j < 0x100000 →
            (L.foldl (fun a ix =>
              goCopyAt a (0x100000 + ix.1 * 0x80000) ((dst.drop ix.2).take 0x80000)) acc)[j]?
              = b[j]?)
        ∧ (∀ j, 0x500000 ≤ j →
            (L.foldl (fun a ix =>
              goCopyAt a (0x100000 + ix.1 * 0x80000) ((dst.drop ix.2).take 0x80000)) acc)[j]?
              = b[j]?) := by
  intro L
  induction L with
  | nil => intro acc b _ h1 h2 h3; exact ⟨h1, h2, h3⟩
  | cons p rest ih =>
    intro acc b hmem h1 h2 h3
    simp only [List.foldl_cons]
    have hp8 : p.1 < 8 := hmem p (List.mem_cons_self _ _)
    have hsrc : ((dst.drop p.2).take 0x80000).length ≤ 0x80000 := by
      simp only [List.length_take, List.length_drop]
      omega
    apply ih
    · intro q hq
      exact hmem q (List.mem_cons_of_mem _ hq)
    · rw [goCopyAt_length]
      exact h1
    · intro j hj
      rw [goCopyAt_getElem_outside _ _ _ j (Or.inl (by omega))]
      exact h2 j hj
    · intro j hj
      rw [goCopyAt_getElem_outside _ _ _ j (Or.inr (by omega))]
      exact h3 j hj

/-- C8: `k2k2PReader` shuffles the output of the underlying P-reader; the
shuffle base offset is 0x100000 when the block list has at most 8 entries
and 0 when it has more; for an 8-entry block list the first 0x100000 bytes
of the result equal the first 0x100000 bytes of the underlying P-reader
output, the length is unchanged, and every byte from offset 0x500000 (the
end of the eight 0x80000-byte blocks) onward is also unchanged — only the
block region starting at the offset is rearranged. -/
theorem k2k2PReader_spec (blocks : List Nat) (roms : List MameROM)
    (readers : List (List Nat)) (re : Option (String → Bool)) (b : List Nat)
    (hok : commonPReader roms readers re = .ok b) :
    k2k2PReader roms readers re blocks = .ok (k2k2Shuffle blocks b)
    ∧ (blocks.length ≤ 8 → k2k2Offset blocks = 0x100000)
    ∧ (8 < blocks.length → k2k2Offset blocks = 0)
    ∧ (blocks.length = 8 →
        (k2k2Shuffle blocks b).take 0x100000 = b.take 0x100000
        ∧ (k2k2Shuffle blocks b).length = b.length
        ∧ ∀ j, 0x500000 ≤ j → (k2k2Shuffle blocks b)[j]? = b[j]?) := by
  refine ⟨?_, ?_, ?_, ?_⟩
  · rw [k2k2PReader, hok]
    rfl
  · intro h
    rw [k2k2Offset, if_neg (by omega)]
  · intro h
    rw [k2k2Offset, if_pos (by omega)]
  · intro h8
    have hoff : k2k2Offset blocks = 0x100000 := by
      rw [k2k2Offset, if_neg (by omega)]
    simp only [k2k2Shuffle, hoff]
    obtain ⟨hl, hpre, hsuf⟩ := k2k2Fold_frame
      (goCopyAt (List.replicate (0x80000 * blocks.length) 0) 0 (b.drop 0x100000))
      blocks.enum b b
      (fun p hp => by have := List.fst_lt_of_mem_enum hp; omega)
      rfl (fun j _ => rfl) (fun j _ => rfl)
    refine ⟨?_, hl, hsuf⟩
    apply List.ext_getElem?
    intro n
    rw [List.getElem?_take, List.getElem?_take]
    by_cases hn : n < 0x100000
    · rw [if_pos hn, if_pos hn]
      exact hpre n hn
    · rw [if_neg hn, if_neg hn]

theorem k2k2PReader_spec_witness :
    k2k2PReader [⟨"b.p1", 4⟩] [[3, 4, 5, 6]] none [0]
      = .ok (k2k2Shuffle [0] [3, 4, 5, 6]) :=
  (k2k2PReader_spec [0] [⟨"b.p1", 4⟩] [[3, 4, 5, 6]] none [3, 4, 5, 6] (by decide)).1

/-! ## C5: interleaveROM -/

theorem takeWhile_append_all {α : Type} (p : α → Bool) (l1 l2 : List α)
    (h : ∀ x ∈ l1, p x = true) :
    (l1 ++ l2).takeWhile p = l1 ++ l2.takeWhile p := by
  induction l1 with
  | nil => simp
  | cons a t ih =>
    rw [List.cons_append, List.takeWhile_cons, if_pos (h a (by simp)),
      ih fun x hx => h x (by simp [hx]), List.cons_append]

theorem takeWhile_append_not_all {α : Type} (p : α → Bool) (l1 l2 : List α)
    (h : ∃ x ∈ l1, p x = false) :
    (l1 ++ l2).takeWhile p = l1.takeWhile p := by
  induction l1 with
  | nil => rcases h with ⟨x, hx, _⟩; simp at hx
  | cons a t ih =>
    rw [List.cons_append, List.takeWhile_cons, List.takeWhile_cons]
    by_cases ha : p a = true
    · rw [if_pos ha, if_pos ha]
      rcases h with ⟨x, hx, hpx⟩
      rcases List.mem_cons.mp hx with rfl | hx'
      · rw [ha] at hpx; cases hpx
      · rw [ih ⟨x, hx', hpx⟩]
    · rw [if_neg ha, if_neg ha]

theorem takeWhile_all {α : Type} (p : α → Bool) (l : List α)
    (h : ∀ x ∈ l, p x = true) : l.takeWhile p = l := by
  have h2 := takeWhile_append_all p l [] h
  simpa using h2

theorem dropWhile_append_all {α : Type} (p : α → Bool) (l1 l2 : List α)
    (h : ∀ x ∈ l1, p x = true) :
    (l1 ++ l2).dropWhile p = l2.dropWhile p := by
  induction l1 with
  | nil => simp
  | cons a t ih =>
    rw [List.cons_append, List.dropWhile_cons, if_pos (h a (by simp))]
    exact ih fun x hx => h x (by simp [hx])

theorem dropWhile_append_not_all {α : Type} (p : α → Bool) (l1 l2 : List α)
    (h : ∃ x ∈ l1, p x = false) :
    (l1 ++ l2).dropWhile p = l1.dropWhile p ++ l2 := by
  induction l1 with
  | nil => rcases h with ⟨x, hx, _⟩; simp at hx
  | cons a t ih =>
    rw [List.cons_append, List.dropWhile_cons, List.dropWhile_cons]
    by_cases ha : p a = true
    · rw [if_pos ha, if_pos ha]
      rcases h with ⟨x, hx, hpx⟩
      rcases List.mem_cons.mp hx with rfl | hx'
      · rw [ha] at hpx; cases hpx
      · exact ih ⟨x, hx', hpx⟩
    · rw [if_neg ha, if_neg ha, List.cons_append]

theorem eq_nil_of_isEmpty {α : Type} {l : List α} (h : l.isEmpty = true) : l = [] := by
  cases l with
  | nil => rfl
  | cons a t => simp [List.isEmpty] at h

theorem tz_le_length (l : List Nat) : tz l ≤ l.length := by
  have h : (l.reverse.takeWhile (fun n => n == 0)).Sublist l.reverse :=
    List.takeWhile_sublist _
  have h2 := h.length_le
  rw [List.length_reverse] at h2
  exact h2

theorem tz_cons_ne (n : Nat) (hn : n ≠ 0) (l : List Nat) : tz (n :: l) = tz l := by
  unfold tz
  rw [List.reverse_cons]
  by_cases hall : ∀ x ∈ l.reverse, (fun m : Nat => m == 0) x = true
  · rw [takeWhile_append_all _ _ _ hall, takeWhile_all _ _ hall]
    have hb : (n == 0) = false := beq_eq_false_iff_ne.mpr hn
    simp [List.takeWhile_cons, hb]
  · push_neg at hall
    rcases hall with ⟨x, hx, hpx⟩
    rw [takeWhile_append_not_all _ _ _ ⟨x, hx, by simpa using hpx⟩]

theorem tz_append_zero (l ns : List Nat) (h : ∀ n ∈ ns, n = 0) :
    tz (l ++ ns) = tz l + ns.length := by
  unfold tz
  rw [List.reverse_append, takeWhile_append_all _ _ _ (fun x hx => by
    have hx0 := h x (List.mem_reverse.mp hx)
    simp [hx0]), List.length_append, List.length_reverse]
  omega

theorem tz_append_pos (l ns : List Nat) (h : ∃ n ∈ ns, n ≠ 0) :
    tz (l ++ ns) = tz ns := by
  unfold tz
  rcases h with ⟨n, hn, hn0⟩
  rw [List.reverse_append, takeWhile_append_not_all (fun m : Nat => m == 0) _ _
    ⟨n, List.mem_reverse.mpr hn, beq_eq_false_iff_ne.mpr hn0⟩]

theorem tailApp_ne_nil (tl ns : List Nat) (h : tl ≠ []) : tailApp tl ns = tl ++ ns := by
  induction ns generalizing tl with
  | nil => simp [tailApp]
  | cons n ns ih =>
    show tailApp (if n = 0 ∨ tl ≠ [] then tl ++ [n] else tl) ns = tl ++ n :: ns
    rw [if_pos (Or.inr h), ih (tl ++ [n]) (by simp), List.append_assoc,
      List.singleton_append]

theorem tailApp_all_zero (tl ns : List Nat) (h : ∀ n ∈ ns, n = 0) :
    tailApp tl ns = tl ++ ns := by
  induction ns generalizing tl with
  | nil => simp [tailApp]
  | cons n ns ih =>
    show tailApp (if n = 0 ∨ tl ≠ [] then tl ++ [n] else tl) ns = tl ++ n :: ns
    rw [if_pos (Or.inl (h n (by simp))), ih (tl ++ [n]) (fun m hm => h m (by simp [hm])),
      List.append_assoc, List.singleton_append]

theorem tailApp_append (tl ns1 ns2 : List Nat) :
    tailApp (tailApp tl ns1) ns2 = tailApp tl (ns1 ++ ns2) := by
  unfold tailApp
  rw [List.foldl_append]

theorem tz_tailApp_nil (ns : List Nat) : tz (tailApp [] ns) = tz ns := by
  induction ns with
  | nil => rfl
  | cons n ns ih =>
    by_cases hn : n = 0
    · subst hn
      show tz (tailApp (if (0 : Nat) = 0 ∨ ([] : List Nat) ≠ [] then [] ++ [0] else []) ns) = _
      rw [if_pos (Or.inl rfl), tailApp_ne_nil ([] ++ [0]) ns (by simp)]
      rfl
    · show tz (tailApp (if n = 0 ∨ ([] : List Nat) ≠ [] then [] ++ [n] else []) ns) = _
      rw [if_neg (by simp [hn]), ih, tz_cons_ne n hn]

theorem tz_tailApp_pos (tl ns : List Nat) (h : ∃ n ∈ ns, n ≠ 0) :
    tz (tailApp tl ns) = tz ns := by
  by_cases htl : tl = []
  · subst htl; exact tz_tailApp_nil ns
  · rw [tailApp_ne_nil tl ns htl, tz_append_pos tl ns h]

theorem tz_tailApp_zero (tl ns : List Nat) (h : ∀ n ∈ ns, n = 0) :
    tz (tailApp tl ns) = tz tl + ns.length := by
  rw [tailApp_all_zero tl ns h, tz_append_zero tl ns h]

theorem specTrimZero_append_zero (S1 S2 : List (List Nat × Nat))
    (h : ∀ p ∈ S2, p.2 = 0) :
    specTrimZero (S1 ++ S2) = specTrimZero S1 := by
  unfold specTrimZero
  rw [List.reverse_append, dropWhile_append_all]
  intro x hx
  have h2 := h x (List.mem_reverse.mp hx)
  simp [h2]

theorem specTrimZero_append_pos (S1 S2 : List (List Nat × Nat))
    (h : ∃ p ∈ S2, p.2 ≠ 0) :
    specTrimZero (S1 ++ S2) = S1 ++ specTrimZero S2 := by
  unfold specTrimZero
  rcases h with ⟨p, hp, hp0⟩
  rw [List.reverse_append, dropWhile_append_not_all (fun q : List Nat × Nat => q.2 == 0) _ _
    ⟨p, List.mem_reverse.mpr hp, beq_eq_false_iff_ne.mpr hp0⟩, List.reverse_append,
    List.reverse_reverse]

theorem flatten_fst_length (w : Nat) (S : List (List Nat × Nat))
    (h : ∀ p ∈ S, p.1.length = w) :
    ((S.map (fun p => p.1)).flatten).length = w * S.length := by
  induction S with
  | nil => simp
  | cons p S ih =>
    simp only [List.map_cons, List.flatten_cons, List.length_append, List.length_cons]
    rw [h p (by simp), ih (fun q hq => h q (by simp [hq]))]
    ring

theorem tz_map_snd (S : List (List Nat × Nat)) :
    tz (S.map (fun p => p.2))
      = (S.reverse.takeWhile (fun p => p.2 == 0)).length := by
  unfold tz
  rw [← List.map_reverse, List.takeWhile_map, List.length_map]
  congr 1

theorem specTrimZero_flatten (w : Nat) (S : List (List Nat × Nat))
    (h : ∀ p ∈ S, p.1.length = w) :
    ((specTrimZero S).map (fun p => p.1)).flatten
      = ((S.map (fun p => p.1)).flatten).take
          (((S.map (fun p => p.1)).flatten).length - w * tz (S.map (fun p => p.2))) := by
  have hsplit : specTrimZero S ++ (S.reverse.takeWhile (fun p => p.2 == 0)).reverse = S := by
    unfold specTrimZero
    rw [← List.reverse_append, List.takeWhile_append_dropWhile, List.reverse_reverse]
  have hmemT : ∀ p ∈ (S.reverse.takeWhile (fun p => p.2 == 0)).reverse, p ∈ S := by
    intro p hp
    rw [List.mem_reverse] at hp
    have hsub : (S.reverse.takeWhile (fun p => p.2 == 0)).Sublist S.reverse :=
      List.takeWhile_sublist _
    exact List.mem_reverse.mp (hsub.mem hp)
  have hT : ((((S.reverse.takeWhile (fun p => p.2 == 0)).reverse).map
      (fun p => p.1)).flatten).length = w * tz (S.map (fun p => p.2)) := by
    rw [flatten_fst_length w _ (fun p hp => h p (hmemT p hp)), List.length_reverse,
      tz_map_snd]
  have key : (S.map (fun p => p.1)).flatten
      = ((specTrimZero S).map (fun p => p.1)).flatten
        ++ (((S.reverse.takeWhile (fun p => p.2 == 0)).reverse).map (fun p => p.1)).flatten := by
    conv_lhs => rw [← hsplit]
    rw [List.map_append, List.flatten_append]
  rw [key, List.length_append, ← hT, Nat.add_sub_cancel, List.take_left]

theorem cycleStrides_cons (w : Nat) (i : Nat) (idxs : List Nat) (rs : List (List Nat)) :
    cycleStrides w (i :: idxs) rs
      = ((rs.getD i []).take w ++ List.replicate (w - min w (rs.getD i []).length) 0,
         min w (rs.getD i []).length) :: cycleStrides w idxs rs := rfl

theorem cycleStrides_append (w : Nat) (l1 l2 : List Nat) (rs : List (List Nat)) :
    cycleStrides w (l1 ++ l2) rs = cycleStrides w l1 rs ++ cycleStrides w l2 rs :=
  List.map_append _ _ _

theorem cycleStrides_fst_length (w : Nat) (idxs : List Nat) (rs : List (List Nat)) :
    ∀ p ∈ cycleStrides w idxs rs, p.1.length = w := by
  intro p hp
  unfold cycleStrides at hp
  rcases List.mem_map.mp hp with ⟨i, _, rfl⟩
  simp only [List.length_append, List.length_take, List.length_replicate]
  omega

theorem cycleStrides_congr (w : Nat) (idxs : List Nat) (rs rs' : List (List Nat))
    (h : ∀ i ∈ idxs, rs.getD i [] = rs'.getD i []) :
    cycleStrides w idxs rs = cycleStrides w idxs rs' := by
  unfold cycleStrides
  exact List.map_congr_left fun i hi => by rw [h i hi]

theorem cycleStrides_length (w : Nat) (idxs : List Nat) (rs : List (List Nat)) :
    (cycleStrides w idxs rs).length = idxs.length := List.length_map _ _

theorem getD_set_self {α : Type} (l : List α) (i : Nat) (a d : α) (h : i < l.length) :
    (l.set i a).getD i d = a := by
  have h2 : i < (l.set i a).length := by rw [List.length_set]; exact h
  rw [List.getD_eq_getElem _ _ h2, List.getElem_set_self]

theorem getD_set_ne {α : Type} (l : List α) (i j : Nat) (a d : α) (h : i ≠ j) :
    (l.set i a).getD j d = l.getD j d := by
  by_cases hj : j < l.length
  · have h2 : j < (l.set i a).length := by rw [List.length_set]; exact hj
    rw [List.getD_eq_getElem _ _ h2, List.getD_eq_getElem _ _ hj, List.getElem_set_ne h]
  · rw [List.getD_eq_default _ _ (by rw [List.length_set]; omega),
      List.getD_eq_default _ _ (by omega)]

theorem ilAllEOF_true_iff (eof : List Bool) :
    ilAllEOF eof = true ↔ ∀ b ∈ eof, b = false := by
  unfold ilAllEOF
  rw [List.all_eq_true]
  constructor
  · intro h b hb
    have h2 := h b hb
    simpa using h2
  · intro h b hb
    simp [h b hb]

theorem ilAllEOF_getD_false (eof : List Bool) (h : ilAllEOF eof = true) (i : Nat)
    (hi : i < eof.length) : eof.getD i true = false := by
  rw [List.getD_eq_getElem _ _ hi]
  exact (ilAllEOF_true_iff eof).mp h _ (List.getElem_mem hi)

theorem ilAllEOF_of_getD (eof : List Bool)
    (h : ∀ i, i < eof.length → eof.getD i true = false) :
    ilAllEOF eof = true := by
  rw [ilAllEOF_true_iff]
  intro b hb
  rcases List.mem_iff_getElem.mp hb with ⟨i, hi, rfl⟩
  rw [← List.getD_eq_getElem eof true hi]
  exact h i hi

theorem sum_drop_le (w : Nat) (rs : List (List Nat)) :
    ((rs.map (fun r => r.drop w)).map List.length).sum ≤ (rs.map List.length).sum := by
  induction rs with
  | nil => simp
  | cons r rs ih =>
    simp only [List.map_cons, List.sum_cons]
    have h : (r.drop w).length ≤ r.length := by
      rw [List.length_drop]; omega
    omega

theorem sum_drop_lt (w : Nat) (hw : 0 < w) (rs : List (List Nat))
    (h : rs.all List.isEmpty = false) :
    ((rs.map (fun r => r.drop w)).map List.length).sum < (rs.map List.length).sum := by
  induction rs with
  | nil => simp at h
  | cons r rs ih =>
    simp only [List.map_cons, List.sum_cons]
    by_cases hr : r = []
    · subst hr
      have h' : rs.all List.isEmpty = false := by
        simpa using h
      have h2 := ih h'
      simp only [List.drop_nil, List.length_nil]
      omega
    · have h1 : 0 < r.length := List.length_pos.mpr hr
      have h2 : (r.drop w).length < r.length := by
        rw [List.length_drop]; omega
      have h3 := sum_drop_le w rs
      omega

theorem specCycles_all_empty (w : Nat) (order : List Nat) (f : Nat) (rs : List (List Nat))
    (h : rs.all List.isEmpty = true) : specCycles w order f rs = [] := by
  cases f with
  | zero => rfl
  | succ f => rw [specCycles, if_pos h]

theorem specCycles_congr_fuel (w : Nat) (hw : 0 < w) (order : List Nat) :
    ∀ f g : Nat, ∀ rs : List (List Nat),
    (rs.map List.length).sum < f → (rs.map List.length).sum < g →
    specCycles w order f rs = specCycles w order g rs := by
  intro f
  induction f with
  | zero => intro g rs hf hg; omega
  | succ f ih =>
    intro g rs hf hg
    cases g with
    | zero => omega
    | succ g =>
      rw [specCycles, specCycles]
      by_cases hemp : rs.all List.isEmpty = true
      · rw [if_pos hemp, if_pos hemp]
      · rw [if_neg hemp, if_neg hemp]
        congr 1
        have hempf : rs.all List.isEmpty = false := by
          cases h : rs.all List.isEmpty
          · rfl
          · exact absurd h hemp
        have hlt := sum_drop_lt w hw rs hempf
        exact ih g _ (by omega) (by omega)

theorem ilCycle_spec (w k : Nat) (idxs : List Nat) :
    ∀ st : IlState, st.rs.length = k → st.eof.length = k →
    idxs.Nodup → (∀ i ∈ idxs, i < k) →
    ∃ idxs1 idxs2 : List Nat,
      idxs = idxs1 ++ idxs2
      ∧ (ilCycle w idxs st).1.rs.length = k
      ∧ (ilCycle w idxs st).1.eof.length = k
      ∧ (ilCycle w idxs st).1.buf
          = st.buf ++ ((cycleStrides w idxs1 st.rs).map (fun p => p.1)).flatten
      ∧ (ilCycle w idxs st).1.tl
          = tailApp st.tl ((cycleStrides w idxs1 st.rs).map (fun p => p.2))
      ∧ (∀ i : Nat, (ilCycle w idxs st).1.rs.getD i []
          = if i ∈ idxs1 then (st.rs.getD i []).drop w else st.rs.getD i [])
      ∧ (∀ i : Nat, (ilCycle w idxs st).1.eof.getD i true
          = if i ∈ idxs1 ∧ (st.rs.getD i []).length < w then false
            else st.eof.getD i true)
      ∧ ((ilCycle w idxs st).2 = true → ilAllEOF (ilCycle w idxs st).1.eof = true)
      ∧ ((ilCycle w idxs st).2 = false →
          idxs2 = [] ∧ (idxs = [] ∨ ilAllEOF (ilCycle w idxs st).1.eof = false)) := by
  induction idxs with
  | nil =>
    intro st hrs heof hnd hlt
    refine ⟨[], [], rfl, hrs, heof, by simp [ilCycle, cycleStrides], rfl,
      fun i => by simp [ilCycle], fun i => by simp [ilCycle], ?_,
      fun _ => ⟨rfl, Or.inl rfl⟩⟩
    intro h
    rw [ilCycle] at h
    simp at h
  | cons idx rest ih =>
    intro st hrs heof hnd hlt
    have hidxk : idx < k := hlt idx (by simp)
    have hidxnr : idx ∉ rest := (List.nodup_cons.mp hnd).1
    set st1 := ilRead w st idx with hst1
    have hrs1len : st1.rs.length = k := by
      rw [hst1]
      show (st.rs.set idx ((st.rs.getD idx []).drop w)).length = k
      rw [List.length_set]; exact hrs
    have heof1len : st1.eof.length = k := by
      rw [hst1]
      show (if min w (st.rs.getD idx []).length < w
            then st.eof.set idx false else st.eof).length = k
      split
      · rw [List.length_set]; exact heof
      · exact heof
    have h1buf : st1.buf = st.buf ++ ((st.rs.getD idx []).take w
        ++ List.replicate (w - min w (st.rs.getD idx []).length) 0) := by
      rw [hst1]
      show st.buf ++ (st.rs.getD idx []).take w
          ++ List.replicate (w - min w (st.rs.getD idx []).length) 0 = _
      rw [List.append_assoc]
    have h1tl : st1.tl = tailApp st.tl [min w (st.rs.getD idx []).length] := rfl
    have hrsget : ∀ i : Nat, st1.rs.getD i []
        = if i = idx then (st.rs.getD idx []).drop w else st.rs.getD i [] := by
      intro i
      rw [hst1]
      show (st.rs.set idx ((st.rs.getD idx []).drop w)).getD i [] = _
      by_cases hi : i = idx
      · subst hi
        rw [if_pos rfl, getD_set_self _ _ _ _ (by rw [hrs]; exact hidxk)]
      · rw [if_neg hi, getD_set_ne _ _ _ _ _ (fun he => hi he.symm)]
    have heofget : ∀ i : Nat, st1.eof.getD i true
        = if i = idx ∧ (st.rs.getD idx []).length < w then false
          else st.eof.getD i true := by
      intro i
      rw [hst1]
      show (if min w (st.rs.getD idx []).length < w
            then st.eof.set idx false else st.eof).getD i true = _
      by_cases hlen : (st.rs.getD idx []).length < w
      · have hmin : min w (st.rs.getD idx []).length < w := by omega
        rw [if_pos hmin]
        by_cases hi : i = idx
        · subst hi
          rw [getD_set_self _ _ _ _ (by rw [heof]; exact hidxk), if_pos ⟨rfl, hlen⟩]
        · rw [getD_set_ne _ _ _ _ _ (fun he => hi he.symm), if_neg (fun hc => hi hc.1)]
      · have hmin : ¬ min w (st.rs.getD idx []).length < w := by omega
        rw [if_neg hmin, if_neg (fun hc => hlen hc.2)]
    by_cases hall : ilAllEOF st1.eof = true
    · have hcyc : ilCycle w (idx :: rest) st = (st1, true) := by
        show (if ilAllEOF (ilRead w st idx).eof then ((ilRead w st idx), true)
              else ilCycle w rest (ilRead w st idx)) = (st1, true)
        rw [← hst1, if_pos hall]
      refine ⟨[idx], rest, rfl, ?_, ?_, ?_, ?_, ?_, ?_, ?_, ?_⟩
      · rw [hcyc]; exact hrs1len
      · rw [hcyc]; exact heof1len
      · rw [hcyc]
        show st1.buf = _
        rw [h1buf]
        simp [cycleStrides]
      · rw [hcyc]
        show st1.tl = _
        rw [h1tl]
        simp [cycleStrides]
      · intro i
        rw [hcyc]
        show st1.rs.getD i [] = _
        rw [hrsget i]
        by_cases hi : i = idx
        · subst hi
          rw [if_pos rfl, if_pos (by simp)]
        · rw [if_neg hi, if_neg (by simpa using hi)]
      · intro i
        rw [hcyc]
        show st1.eof.getD i true = _
        rw [heofget i]
        by_cases hi : i = idx
        · subst hi
          by_cases hlen : (st.rs.getD i []).length < w
          · rw [if_pos ⟨rfl, hlen⟩, if_pos ⟨by simp, hlen⟩]
          · rw [if_neg (fun hc => hlen hc.2), if_neg (fun hc => hlen hc.2)]
        · rw [if_neg (fun hc => hi hc.1),
            if_neg (fun hc => hi (by simpa using hc.1))]
      · intro _
        rw [hcyc]
        exact hall
      · intro h
        rw [hcyc] at h
        simp at h
    · have hallf : ilAllEOF st1.eof = false := by
        cases h : ilAllEOF st1.eof
        · rfl
        · exact absurd h hall
      have hcyc : ilCycle w (idx :: rest) st = ilCycle w rest st1 := by
        show (if ilAllEOF (ilRead w st idx).eof then ((ilRead w st idx), true)
              else ilCycle w rest (ilRead w st idx)) = ilCycle w rest st1
        rw [← hst1, if_neg hall]
      obtain ⟨idxs1, idxs2, hsp, hrsl, heofl, hbuf, htl, hrsp, heofp, hbt, hbf⟩ :=
        ih st1 hrs1len heof1len hnd.of_cons (fun i hi => hlt i (by simp [hi]))
      have hmem1 : ∀ i ∈ idxs1, i ∈ rest := by
        intro i hi
        rw [hsp]
        exact List.mem_append_left idxs2 hi
      have hcs : cycleStrides w idxs1 st1.rs = cycleStrides w idxs1 st.rs := by
        apply cycleStrides_congr
        intro i hi
        have hne : i ≠ idx := fun he => hidxnr (he ▸ hmem1 i hi)
        rw [hrsget i, if_neg hne]
      refine ⟨idx :: idxs1, idxs2, by rw [List.cons_append, ← hsp], ?_, ?_, ?_, ?_, ?_, ?_, ?_, ?_⟩
      · rw [hcyc]; exact hrsl
      · rw [hcyc]; exact heofl
      · rw [hcyc, hbuf, hcs, h1buf]
        simp only [cycleStrides_cons, List.map_cons, List.flatten_cons, List.append_assoc]
      · rw [hcyc, htl, hcs, h1tl, tailApp_append]
        simp only [cycleStrides_cons, List.map_cons, List.singleton_append]
      · intro i
        rw [hcyc, hrsp i, hrsget i]
        by_cases hi : i = idx
        · subst hi
          have hni : i ∉ idxs1 := fun h => hidxnr (hmem1 i h)
          rw [if_neg hni]
          simp
        · rw [if_neg hi]
          by_cases h1 : i ∈ idxs1
          · simp [h1]
          · simp [h1, hi]
      · intro i
        rw [hcyc, heofp i, hrsget i, heofget i]
        by_cases hi : i = idx
        · subst hi
          have hni : i ∉ idxs1 := fun h => hidxnr (hmem1 i h)
          simp [hni]
        · simp [hi]
      · intro h
        rw [hcyc] at h ⊢
        exact hbt h
      · intro h
        rw [hcyc] at h
        obtain ⟨h2, h3⟩ := hbf h
        refine ⟨h2, Or.inr ?_⟩
        rcases h3 with hr | hf
        · subst hr
          rw [hcyc]
          exact hallf
        · rw [hcyc]
          exact hf

theorem ilLoop_spec (w k : Nat) (hw : 0 < w) (order : List Nat)
    (hnd : order.Nodup) (hlt : ∀ i ∈ order, i < k) (hne : order ≠ [])
    (hcov : ∀ i, i < k → i ∈ order) :
    ∀ fuel : Nat, ∀ st : IlState, st.rs.length = k → st.eof.length = k →
    (∀ i, i < k → st.eof.getD i true = false → st.rs.getD i [] = []) →
    ilAllEOF st.eof = false →
    w * tz st.tl ≤ st.buf.length →
    (st.rs.map List.length).sum < fuel →
    ∃ st' : IlState, ilLoop w order fuel st = some st'
      ∧ ilTrim w st'.buf st'.tl
          = (if st.rs.all List.isEmpty then st.buf.take (st.buf.length - w * tz st.tl)
             else st.buf ++ interleaveSpec w order st.rs) := by
  intro fuel
  induction fuel with
  | zero => intro st _ _ _ _ _ hfuel; omega
  | succ fuel ih =>
    intro st hrs heof hinv hane haux hfuel
    obtain ⟨idxs1, idxs2, hsp, hrsl, heofl, hbuf, htl, hrsp, heofp, hbt, hbf⟩ :=
      ilCycle_spec w k order st hrs heof hnd hlt
    rcases hcyc : ilCycle w order st with ⟨st1, broke⟩
    have hrsl1 : st1.rs.length = k := by rw [hcyc] at hrsl; exact hrsl
    have heofl1 : st1.eof.length = k := by rw [hcyc] at heofl; exact heofl
    have hbuf1 : st1.buf
        = st.buf ++ ((cycleStrides w idxs1 st.rs).map (fun p => p.1)).flatten := by
      rw [hcyc] at hbuf; exact hbuf
    have htl1 : st1.tl
        = tailApp st.tl ((cycleStrides w idxs1 st.rs).map (fun p => p.2)) := by
      rw [hcyc] at htl; exact htl
    have hrsp1 : ∀ i : Nat, st1.rs.getD i []
        = if i ∈ idxs1 then (st.rs.getD i []).drop w else st.rs.getD i [] := by
      rw [hcyc] at hrsp; exact hrsp
    have heofp1 : ∀ i : Nat, st1.eof.getD i true
        = if i ∈ idxs1 ∧ (st.rs.getD i []).length < w then false
          else st.eof.getD i true := by
      rw [hcyc] at heofp; exact heofp
    have hbt1 : broke = true → ilAllEOF st1.eof = true := by
      rw [hcyc] at hbt; exact hbt
    have hbf1 : broke = false → idxs2 = [] ∧ (order = [] ∨ ilAllEOF st1.eof = false) := by
      rw [hcyc] at hbf; exact hbf
    have hloop : ilLoop w order (fuel + 1) st
        = (if broke then some st1 else ilLoop w order fuel st1) := by
      show (match ilCycle w order st with
            | (st', true) => some st'
            | (st', false) => ilLoop w order fuel st') = _
      rw [hcyc]
      cases broke
      · rfl
      · rfl
    have hC1len : ∀ p ∈ cycleStrides w idxs1 st.rs, p.1.length = w :=
      cycleStrides_fst_length w idxs1 st.rs
    have hF1len : (((cycleStrides w idxs1 st.rs).map (fun p => p.1)).flatten).length
        = w * idxs1.length := by
      rw [flatten_fst_length w _ hC1len, cycleStrides_length]
    have hns1len : ((cycleStrides w idxs1 st.rs).map (fun p => p.2)).length
        = idxs1.length := by
      rw [List.length_map, cycleStrides_length]
    have hmem1 : ∀ i ∈ idxs1, i ∈ order := by
      intro i hi
      rw [hsp]
      exact List.mem_append_left idxs2 hi
    have hsndmem : ∀ j ∈ idxs1, min w (st.rs.getD j []).length
        ∈ (cycleStrides w idxs1 st.rs).map (fun p => p.2) := by
      intro j hj
      unfold cycleStrides
      rw [List.map_map]
      exact List.mem_map_of_mem _ hj
    cases broke with
    | false =>
      obtain ⟨hidxs2, hor⟩ := hbf1 rfl
      have hallf : ilAllEOF st1.eof = false := hor.resolve_left hne
      have hidxs1 : idxs1 = order := by
        rw [hsp, hidxs2, List.append_nil]
      rw [hidxs1] at hbuf1 htl1 hrsp1 heofp1 hC1len hF1len hns1len hsndmem
      have hempn : st.rs.all List.isEmpty = false := by
        cases hemp : st.rs.all List.isEmpty
        · rfl
        · exfalso
          have hallt : ilAllEOF st1.eof = true := by
            apply ilAllEOF_of_getD
            intro i hi
            rw [heofl1] at hi
            rw [heofp1 i]
            have hg : st.rs.getD i [] = [] := by
              have hik : i < st.rs.length := by rw [hrs]; exact hi
              rw [List.getD_eq_getElem _ _ hik]
              exact eq_nil_of_isEmpty (List.all_eq_true.mp hemp _ (List.getElem_mem hik))
            rw [if_pos ⟨hcov i hi, by rw [hg]; simpa using hw⟩]
          rw [hallt] at hallf
          simp at hallf
      have hempn' : ¬ st.rs.all List.isEmpty = true := by
        rw [hempn]
        simp
      have hrs1 : st1.rs = st.rs.map (fun r => r.drop w) := by
        apply List.ext_getElem
        · rw [hrsl1, List.length_map, hrs]
        · intro i h1 h2
          have hik : i < k := by rw [← hrsl1]; exact h1
          have hik' : i < st.rs.length := by rw [hrs]; exact hik
          rw [List.getElem_map]
          rw [← List.getD_eq_getElem st1.rs [] h1, ← List.getD_eq_getElem st.rs [] hik']
          rw [hrsp1 i, if_pos (hcov i hik)]
      have hinv1 : ∀ i, i < k → st1.eof.getD i true = false → st1.rs.getD i [] = [] := by
        intro i hik hbit
        rw [hrsp1 i, if_pos (hcov i hik)]
        rw [heofp1 i] at hbit
        by_cases hc : i ∈ order ∧ (st.rs.getD i []).length < w
        · exact List.drop_eq_nil_of_le (le_of_lt hc.2)
        · rw [if_neg hc] at hbit
          rw [hinv i hik hbit]
          exact List.drop_nil
      have hpos1 : ∃ n ∈ (cycleStrides w order st.rs).map (fun p => p.2), n ≠ 0 := by
        obtain ⟨r, hr, hrne⟩ := List.all_eq_false.mp hempn
        rcases List.mem_iff_getElem.mp hr with ⟨j, hj, hje⟩
        have hjk : j < k := by rw [← hrs]; exact hj
        have hjget : st.rs.getD j [] = r := by rw [List.getD_eq_getElem _ _ hj, hje]
        have hjlen : (st.rs.getD j []).length ≠ 0 := by
          rw [hjget]
          intro h0
          rw [List.eq_nil_of_length_eq_zero h0] at hrne
          exact hrne rfl
        exact ⟨min w (st.rs.getD j []).length, hsndmem j (hcov j hjk), by omega⟩
      have htzle1 : tz ((cycleStrides w order st.rs).map (fun p => p.2)) ≤ order.length := by
        have h1 := tz_le_length ((cycleStrides w order st.rs).map (fun p => p.2))
        rwa [hns1len] at h1
      have haux1 : w * tz st1.tl ≤ st1.buf.length := by
        rw [htl1, tz_tailApp_pos _ _ hpos1, hbuf1, List.length_append, hF1len]
        have h2 := Nat.mul_le_mul_left w htzle1
        omega
      have hsum1 : (st1.rs.map List.length).sum < fuel := by
        rw [hrs1]
        have h2 := sum_drop_lt w hw st.rs hempn
        omega
      obtain ⟨st', hst', htrim⟩ := ih st1 hrsl1 heofl1 hinv1 hallf haux1 hsum1
      refine ⟨st', ?_, ?_⟩
      · rw [hloop, if_neg (by simp)]
        exact hst'
      · rw [if_neg hempn']
        rw [htrim]
        have hspecunfold : specCycles w order ((st.rs.map List.length).sum + 1) st.rs
            = cycleStrides w order st.rs
              ++ specCycles w order
                  (((st.rs.map (fun r => r.drop w)).map List.length).sum + 1)
                  (st.rs.map (fun r => r.drop w)) := by
          rw [specCycles, if_neg hempn']
          congr 1
          have h2 := sum_drop_lt w hw st.rs hempn
          exact specCycles_congr_fuel w hw order _ _ _ (by omega) (by omega)
        have hispec : interleaveSpec w order st.rs
            = ((specTrimZero (cycleStrides w order st.rs
                ++ specCycles w order
                    (((st.rs.map (fun r => r.drop w)).map List.length).sum + 1)
                    (st.rs.map (fun r => r.drop w)))).map (fun p => p.1)).flatten := by
          unfold interleaveSpec
          rw [hspecunfold]
        by_cases hemp1 : st1.rs.all List.isEmpty = true
        · rw [if_pos hemp1]
          have hS2 : specCycles w order
              (((st.rs.map (fun r => r.drop w)).map List.length).sum + 1)
              (st.rs.map (fun r => r.drop w)) = [] := by
            apply specCycles_all_empty
            rw [← hrs1]
            exact hemp1
          rw [hispec, hS2, List.append_nil]
          rw [specTrimZero_flatten w _ hC1len]
          rw [hbuf1, htl1, tz_tailApp_pos _ _ hpos1]
          rw [List.length_append, hF1len]
          have h2 := Nat.mul_le_mul_left w htzle1
          have harith : st.buf.length + w * order.length
                - w * tz ((cycleStrides w order st.rs).map (fun p => p.2))
              = st.buf.length + (w * order.length
                - w * tz ((cycleStrides w order st.rs).map (fun p => p.2))) := by
            omega
          rw [harith, List.take_append]
        · rw [if_neg hemp1]
          rw [hispec]
          have hemp1' : st1.rs.all List.isEmpty = false := by
            cases h : st1.rs.all List.isEmpty
            · rfl
            · exact absurd h hemp1
          have hemp2 : (st.rs.map (fun r => r.drop w)).all List.isEmpty = false := by
            rw [← hrs1]; exact hemp1'
          have hemp2' : ¬ (st.rs.map (fun r => r.drop w)).all List.isEmpty = true := by
            rw [hemp2]; simp
          have hpos2 : ∃ p ∈ specCycles w order
              (((st.rs.map (fun r => r.drop w)).map List.length).sum + 1)
              (st.rs.map (fun r => r.drop w)), p.2 ≠ 0 := by
            obtain ⟨r, hr, hrne⟩ := List.all_eq_false.mp hemp2
            rcases List.mem_iff_getElem.mp hr with ⟨j, hj, hje⟩
            have hjk : j < k := by
              rw [List.length_map, hrs] at hj
              exact hj
            have hjget : (st.rs.map (fun r => r.drop w)).getD j [] = r := by
              rw [List.getD_eq_getElem _ _ hj, hje]
            have hjlen : ((st.rs.map (fun r => r.drop w)).getD j []).length ≠ 0 := by
              rw [hjget]
              intro h0
              rw [List.eq_nil_of_length_eq_zero h0] at hrne
              exact hrne rfl
            rw [specCycles, if_neg hemp2']
            refine ⟨(((st.rs.map (fun r => r.drop w)).getD j []).take w
                ++ List.replicate
                  (w - min w ((st.rs.map (fun r => r.drop w)).getD j []).length) 0,
                min w ((st.rs.map (fun r => r.drop w)).getD j []).length),
              List.mem_append_left _ ?_, ?_⟩
            · unfold cycleStrides
              exact List.mem_map_of_mem _ (hcov j hjk)
            · show min w ((st.rs.map (fun r => r.drop w)).getD j []).length ≠ 0
              omega
          rw [specTrimZero_append_pos _ _ hpos2]
          rw [List.map_append, List.flatten_append]
          conv_lhs => rw [hbuf1, hrs1]
          unfold interleaveSpec
          rw [List.append_assoc]
    | true =>
      refine ⟨st1, by rw [hloop, if_pos rfl], ?_⟩
      have hall1 : ilAllEOF st1.eof = true := hbt1 rfl
      have hbits : ∀ i, i < k → st1.eof.getD i true = false := by
        intro i hi
        exact ilAllEOF_getD_false st1.eof hall1 i (by rw [heofl1]; exact hi)
      by_cases hemp : st.rs.all List.isEmpty = true
      · rw [if_pos hemp]
        have hzero : ∀ n ∈ (cycleStrides w idxs1 st.rs).map (fun p => p.2), n = 0 := by
          intro n hn
          have hex : ∃ i ∈ idxs1, n = min w (st.rs.getD i []).length := by
            unfold cycleStrides at hn
            rw [List.map_map] at hn
            rcases List.mem_map.mp hn with ⟨i, hi, rfl⟩
            exact ⟨i, hi, rfl⟩
          rcases hex with ⟨i, hi, rfl⟩
          have hik : i < k := hlt i (hmem1 i hi)
          have hik' : i < st.rs.length := by rw [hrs]; exact hik
          have hg : st.rs.getD i [] = [] := by
            rw [List.getD_eq_getElem _ _ hik']
            exact eq_nil_of_isEmpty (List.all_eq_true.mp hemp _ (List.getElem_mem hik'))
          rw [hg]
          simp
        unfold ilTrim
        rw [hbuf1, htl1, tz_tailApp_zero _ _ hzero, hns1len]
        rw [List.length_append, hF1len]
        have harith : st.buf.length + w * idxs1.length - w * (tz st.tl + idxs1.length)
            = st.buf.length - w * tz st.tl := by
          rw [Nat.mul_add]
          omega
        rw [harith]
        rw [List.take_append_of_le_length (by omega)]
      · have hempf : st.rs.all List.isEmpty = false := by
          cases h : st.rs.all List.isEmpty
          · rfl
          · exact absurd h hemp
        rw [if_neg hemp]
        obtain ⟨r, hr, hrne⟩ := List.all_eq_false.mp hempf
        rcases List.mem_iff_getElem.mp hr with ⟨j, hj, hje⟩
        have hjk : j < k := by rw [← hrs]; exact hj
        have hjget : st.rs.getD j [] = r := by rw [List.getD_eq_getElem _ _ hj, hje]
        have hjlen : (st.rs.getD j []).length ≠ 0 := by
          rw [hjget]
          intro h0
          rw [List.eq_nil_of_length_eq_zero h0] at hrne
          exact hrne rfl
        have hbitj : st.eof.getD j true = true := by
          cases hbj : st.eof.getD j true
          · exfalso
            have hg := hinv j hjk hbj
            rw [hg] at hjlen
            exact hjlen rfl
          · rfl
        have hcj : j ∈ idxs1 ∧ (st.rs.getD j []).length < w := by
          have h2 := heofp1 j
          rw [hbits j hjk, hbitj] at h2
          by_contra hc
          rw [if_neg hc] at h2
          exact Bool.false_ne_true h2
        have hpos : ∃ n ∈ (cycleStrides w idxs1 st.rs).map (fun p => p.2), n ≠ 0 :=
          ⟨min w (st.rs.getD j []).length, hsndmem j hcj.1, by omega⟩
        have hfin : ∀ i, i < k → (st.rs.getD i []).drop w = [] := by
          intro i hi
          cases hbi : st.eof.getD i true
          · rw [hinv i hi hbi]
            exact List.drop_nil
          · have h2 := heofp1 i
            rw [hbits i hi, hbi] at h2
            have hci : i ∈ idxs1 ∧ (st.rs.getD i []).length < w := by
              by_contra hc
              rw [if_neg hc] at h2
              exact Bool.false_ne_true h2
            exact List.drop_eq_nil_of_le (le_of_lt hci.2)
        have hrsdropempty : (st.rs.map (fun r => r.drop w)).all List.isEmpty = true := by
          rw [List.all_eq_true]
          intro x hx
          rcases List.mem_iff_getElem.mp hx with ⟨i, hi, hxe⟩
          have hi' : i < st.rs.length := by rw [List.length_map] at hi; exact hi
          have hxeq : x = (st.rs.getD i []).drop w := by
            rw [← hxe, List.getElem_map, List.getD_eq_getElem _ _ hi']
          rw [hxeq, hfin i (by rw [← hrs]; exact hi')]
          rfl
        have hspec : specCycles w order ((st.rs.map List.length).sum + 1) st.rs
            = cycleStrides w order st.rs := by
          rw [specCycles, if_neg hemp, specCycles_all_empty w order _ _ hrsdropempty,
            List.append_nil]
        have hnd2 := hnd
        rw [hsp] at hnd2
        have hdisj : ∀ i ∈ idxs2, i ∉ idxs1 := by
          have h3 := List.nodup_append.mp hnd2
          exact fun i hi2 hi1 => h3.2.2 hi1 hi2
        have hC2zero : ∀ p ∈ cycleStrides w idxs2 st.rs, p.2 = 0 := by
          intro p hp
          unfold cycleStrides at hp
          rcases List.mem_map.mp hp with ⟨i, hi, rfl⟩
          have hik : i < k := hlt i (by rw [hsp]; exact List.mem_append_right idxs1 hi)
          have hbitfalse : st.eof.getD i true = false := by
            have h2 := heofp1 i
            rw [hbits i hik, if_neg (fun hc => hdisj i hi hc.1)] at h2
            exact h2.symm
          have hg := hinv i hik hbitfalse
          show min w (st.rs.getD i []).length = 0
          rw [hg]
          simp
        have hsplitC : cycleStrides w order st.rs
            = cycleStrides w idxs1 st.rs ++ cycleStrides w idxs2 st.rs := by
          rw [hsp, cycleStrides_append]
        have hspec2 : specTrimZero (cycleStrides w order st.rs)
            = specTrimZero (cycleStrides w idxs1 st.rs) := by
          rw [hsplitC]
          exact specTrimZero_append_zero _ _ hC2zero
        unfold ilTrim interleaveSpec
        rw [hspec, hspec2, specTrimZero_flatten w _ hC1len]
        rw [hbuf1, htl1, tz_tailApp_pos _ _ hpos]
        rw [List.length_append, hF1len]
        have htzle : tz ((cycleStrides w idxs1 st.rs).map (fun p => p.2))
            ≤ idxs1.length := by
          have h1 := tz_le_length ((cycleStrides w idxs1 st.rs).map (fun p => p.2))
          rwa [hns1len] at h1
        have h2 := Nat.mul_le_mul_left w htzle
        have harith : st.buf.length + w * idxs1.length
              - w * tz ((cycleStrides w idxs1 st.rs).map (fun p => p.2))
            = st.buf.length + (w * idxs1.length
              - w * tz ((cycleStrides w idxs1 st.rs).map (fun p => p.2))) := by
          omega
        rw [harith, List.take_append]

theorem interleaveROM_ok (w : Nat) (hw : 0 < w) (readers : List (List Nat))
    (k : Nat) (order : List Nat) (hk : readers.length = k) (hk0 : 0 < k)
    (hnd : order.Nodup) (hlt : ∀ i ∈ order, i < k) (hne : order ≠ [])
    (hcov : ∀ i, i < k → i ∈ order)
    (horder : (if readers.length = 2 then [0, 1]
               else if readers.length = 4 then [0, 2, 1, 3] else ([] : List Nat))
        = order) :
    interleaveROM w readers = .ok (interleaveSpec w order readers) := by
  have hbit : ∀ i : Nat, (readers.map (fun _ => true)).getD i true = true := by
    intro i
    by_cases hi : i < (readers.map (fun _ => true)).length
    · rw [List.getD_eq_getElem _ _ hi, List.getElem_map]
    · rw [List.getD_eq_default _ _ (by omega)]
  have hrne : readers ≠ [] := by
    intro h
    rw [h] at hk
    simp at hk
    omega
  have hane : ilAllEOF (readers.map (fun _ => true)) = false := by
    unfold ilAllEOF
    rw [List.all_eq_false]
    refine ⟨true, ?_, by simp⟩
    cases readers with
    | nil => exact absurd rfl hrne
    | cons r rest => exact List.mem_map_of_mem _ (List.mem_cons_self r rest)
  obtain ⟨st', hst', htrim⟩ := ilLoop_spec w k hw order hnd hlt hne hcov
    ((readers.map List.length).sum + readers.length + 1)
    { rs := readers, eof := readers.map (fun _ => true), buf := [], tl := [] }
    hk (by rw [List.length_map]; exact hk)
    (fun i hik hfalse => absurd (hfalse.symm.trans (hbit i)) (by simp))
    hane (by simp [tz])
    (by show (readers.map List.length).sum < (readers.map List.length).sum + readers.length + 1
        omega)
  have htrim2 : ilTrim w st'.buf st'.tl
      = (if readers.all List.isEmpty
         then ([] : List Nat).take (([] : List Nat).length - w * tz [])
         else [] ++ interleaveSpec w order readers) := htrim
  simp only [interleaveROM]
  rw [horder, if_neg hne, hst']
  show Except.ok (ilTrim w st'.buf st'.tl) = _
  by_cases hemp : readers.all List.isEmpty = true
  · rw [htrim2, if_pos hemp]
    have hs : interleaveSpec w order readers = [] := by
      unfold interleaveSpec
      rw [specCycles_all_empty w order _ readers hemp]
      rfl
    rw [hs]
    rfl
  · rw [htrim2, if_neg hemp, List.nil_append]

/-- C5: `interleaveROM(width, readers)` — modelled on byte-list readers with
the Go loop's EOF bitmask, mid-cycle break and tail-trim — equals the
specification's interleave stream (`interleaveSpec`, written from the
spec's words: full cycles over the source order, `width`-byte strides
zero-filled on short reads, trailing strides contributed by zero-byte
reads trimmed): with exactly two sources the per-cycle order is 0,1; with
exactly four sources it is 0,2,1,3; any other source count yields the
InvalidInterleave error and no stream. -/
theorem interleaveROM_spec (w : Nat) (hw : 0 < w) (readers : List (List Nat)) :
    (readers.length = 2 →
       interleaveROM w readers = .ok (interleaveSpec w [0, 1] readers))
    ∧ (readers.length = 4 →
       interleaveROM w readers = .ok (interleaveSpec w [0, 2, 1, 3] readers))
    ∧ (readers.length ≠ 2 → readers.length ≠ 4 →
       interleaveROM w readers = .error .invalidInterleave) := by
  refine ⟨?_, ?_, ?_⟩
  · intro h2
    refine interleaveROM_ok w hw readers 2 [0, 1] h2 (by omega) (by decide)
      (by decide) (by decide) ?_ ?_
    · intro i hi
      interval_cases i
      · decide
      · decide
    · rw [if_pos h2]
  · intro h4
    refine interleaveROM_ok w hw readers 4 [0, 2, 1, 3] h4 (by omega) (by decide)
      (by decide) (by decide) ?_ ?_
    · intro i hi
      interval_cases i
      · decide
      · decide
      · decide
      · decide
    · rw [if_neg (by omega), if_pos h4]
  · intro h2 h4
    simp only [interleaveROM]
    rw [if_neg h2, if_neg h4, if_pos rfl]

theorem interleaveROM_spec_witness :
    interleaveROM 1 [[1, 2], [3]] = .ok (interleaveSpec 1 [0, 1] [[1, 2], [3]])
      ∧ interleaveROM 1 [[1, 2], [3]] = .ok [1, 3, 2] :=
  ⟨(interleaveROM_spec 1 (by decide) [[1, 2], [3]]).1 rfl, by decide⟩

end Neo
